import Mathlib

/-!
Verification development for the StephenKingBooks ingestion-and-reconciliation
core: title normalization (`main.normalize_title`, `BookMerger._normalize`),
edit-distance similarity (`main.levenshtein_distance`, `main.is_similar_title`),
edition-variant stripping (`BookMerger._extract_base_title`), cross-source
merging (`BookMerger.merge`, `BookMerger._is_existing`,
`BookMerger._merge_book_data`), and the Wikipedia tabular extractor's
per-row year resolution (`WikipediaService._parse_row`, `_parse_section`).

Embedding conventions:
- Python strings are Lean `String`s; character-level work uses `List Char`.
- Python `re` character class `\w` is modelled by `isWordChar`: ASCII
  alphanumerics, underscore, and every non-ASCII codepoint (Python's
  Unicode `\w` covers all letters that occur in the data, e.g. accented
  vowels).  `\s` is modelled by `Char.isWhitespace` (space, tab, CR, LF).
- Python `str.lower` is modelled by `Char.toLower` (ASCII case folding;
  every non-ASCII character appearing in the analysed inputs is already
  lowercase).
- Python dict values are `PyVal` (string, int or bool); Python dicts are
  association lists preserving insertion order, as Python dicts do.
- `BookMerger.merge` mutates dicts through references, so it is embedded
  against an explicit heap `Nat → Dict`: source lists hold dict ids and
  the merge returns the final heap together with the accumulator.
-/

/-- Whitespace test used for Python's `\s` and `str.strip`. -/
def isSp (c : Char) : Bool := c.isWhitespace

/-- Python `\w` (word character): ASCII alphanumeric, underscore, or any
non-ASCII codepoint (approximating Unicode word characters). -/
def isWordChar (c : Char) : Bool := c.isAlphanum || c == '_' || decide (c.toNat ≥ 128)

/-- Characters kept by the punctuation-removal step `re.sub(r"[^\w\s]", "", t)`. -/
def keepCh (c : Char) : Bool := isWordChar c || isSp c

/-- ASCII apostrophe, written by codepoint to keep sources quote-free. -/
def apoC : Char := Char.ofNat 39

/-- Python `str.lower`, character list version. -/
def lowerL (l : List Char) : List Char := l.map Char.toLower

/-- Drop trailing whitespace. -/
def rdropSp (l : List Char) : List Char := (l.reverse.dropWhile isSp).reverse

/-- Python `str.strip`: drop leading and trailing whitespace. -/
def pyStrip (l : List Char) : List Char := rdropSp (l.dropWhile isSp)

/-- Model of `re.sub(r"\s+", " ", t)`: each maximal whitespace run becomes
a single space. -/
def squeeze : List Char → List Char
  | [] => []
  | [c] => [if isSp c then ' ' else c]
  | a :: b :: t =>
    if isSp a ∧ isSp b then squeeze (b :: t)
    else (if isSp a then ' ' else a) :: squeeze (b :: t)

/-- Boolean prefix test on char lists (case-sensitive). -/
def leadsWith : List Char → List Char → Bool
  | [], _ => true
  | _ :: _, [] => false
  | a :: w, b :: l => a == b && leadsWith w l

/-- Helper for `hasSub`: try every suffix of `l`. -/
def hasSubAux (sub : List Char) : List Char → Bool
  | [] => leadsWith sub []
  | c :: t => leadsWith sub (c :: t) || hasSubAux sub t

/-- Does `sub` occur as a contiguous substring of `l`?  Models Python's
`sub in s`. -/
def hasSub (l sub : List Char) : Bool := hasSubAux sub l

/-- Article stripping `re.sub(r"^(alt1|alt2|...)\s+", "", t)`: the first
alternative (in regex order) that is a prefix followed by at least one
whitespace character is removed together with the whitespace run. -/
def stripLeadArticle (arts : List (List Char)) (l : List Char) : List Char :=
  match arts.find? (fun a =>
      leadsWith a l && (match (l.drop a.length).head? with
        | some c => isSp c
        | none => false)) with
  | some a => (l.drop a.length).dropWhile isSp
  | none => l

/-- Alternatives of `BookMerger._normalize`'s article regex `^(the|a|an)\s+`. -/
def mergerArticles : List (List Char) := [['t','h','e'], ['a'], ['a','n']]

/-- Alternatives of `normalize_title`'s article regex
`^(the|a|an|le|la|les|l'|un|une)\s+`, in regex order. -/
def mainArticles : List (List Char) :=
  [['t','h','e'], ['a'], ['a','n'], ['l','e'], ['l','a'], ['l','e','s'],
   ['l', apoC], ['u','n'], ['u','n','e']]

/-- `BookMerger._normalize` (src/src/services/merger.py:53-62):
lowercase and trim, strip one leading English article, remove punctuation,
collapse whitespace, trim. -/
def mergerNormalizeL (l : List Char) : List Char :=
  pyStrip (squeeze (List.filter keepCh
    (stripLeadArticle mergerArticles (pyStrip (lowerL l)))))

/-- String wrapper for `BookMerger._normalize`. -/
def mergerNormalize (s : String) : String := String.mk (mergerNormalizeL s.data)

/-- Option-valued primitive: match a literal word (input already lowercase). -/
def litP (w : List Char) (l : List Char) : Option (List Char) :=
  if leadsWith w l then some (l.drop w.length) else none

/-- Option-valued primitive: `\s+` (at least one whitespace char, consume
the maximal run; sound here because every continuation in the series-prefix
patterns starts with a non-whitespace literal). -/
def ws1P (l : List Char) : Option (List Char) :=
  match l with
  | c :: r => if isSp c then some (r.dropWhile isSp) else none
  | [] => none

/-- Option-valued primitive: `\s*` (consume the maximal whitespace run). -/
def ws0P (l : List Char) : Option (List Char) := some (l.dropWhile isSp)

/-- Option-valued primitive: a single expected character. -/
def chP (c : Char) (l : List Char) : Option (List Char) :=
  match l with
  | c' :: r => if c' == c then some r else none
  | [] => none

/-- Roman-numeral-or-digit class `[ivxlc0-9]` in the series-prefix regexes. -/
def isRomanDigit (c : Char) : Bool :=
  c == 'i' || c == 'v' || c == 'x' || c == 'l' || c == 'c' || c.isDigit

/-- Tail of the two series-prefix regexes: `\s*[ivxlc0-9]*\s*:\s*`. -/
def numeralColonP (l : List Char) : Option (List Char) :=
  ws0P l >>= fun l1 => some (l1.dropWhile isRomanDigit) >>= fun l2 =>
  ws0P l2 >>= chP ':' >>= ws0P

/-- Core of `re.sub(r"^(the\s+)?dark\s+tower\s*[ivxlc0-9]*\s*:\s*", ...)`
after the optional leading `the`. -/
def darkTowerCoreP (l : List Char) : Option (List Char) :=
  litP ['d','a','r','k'] l >>= ws1P >>= litP ['t','o','w','e','r'] >>= numeralColonP

/-- Strip the `Dark Tower` series prefix (main.py:21).  The optional
`(the\s+)?` group is tried first, as the regex engine does; the fallback
without it can only succeed when the title does not start with `the`. -/
def stripDarkTower (l : List Char) : List Char :=
  let withThe :=
    litP ['t','h','e'] l >>= ws1P >>= darkTowerCoreP
  match withThe with
  | some r => r
  | none =>
    match darkTowerCoreP l with
    | some r => r
    | none => l

/-- Strip the `La Tour Sombre` series prefix (main.py:22):
`re.sub(r"^la\s+tour\s+sombre\s*[ivxlc0-9]*\s*:\s*", "", t)`. -/
def stripTourSombre (l : List Char) : List Char :=
  match litP ['l','a'] l >>= ws1P >>= litP ['t','o','u','r'] >>= ws1P >>=
        litP ['s','o','m','b','r','e'] >>= numeralColonP with
  | some r => r
  | none => l

/-- Strip the possessive-series marker (main.py:23):
`re.sub(r"^gwendy['s]*\s*", "", t)` (the class holds an ASCII apostrophe
and `s`). -/
def stripGwendy (l : List Char) : List Char :=
  match litP ['g','w','e','n','d','y'] l with
  | some r => (r.dropWhile (fun c => c == apoC || c == 's')).dropWhile isSp
  | none => l

/-- `normalize_title` (src/main.py:17-28): lowercase and trim, strip series
prefixes, strip the possessive-series marker, strip one leading article in
English or French, remove punctuation, collapse whitespace, trim. -/
def normalizeTitleL (l : List Char) : List Char :=
  pyStrip (squeeze (List.filter keepCh
    (stripLeadArticle mainArticles
      (stripGwendy (stripTourSombre (stripDarkTower (pyStrip (lowerL l))))))))

/-- String wrapper for `main.normalize_title`. -/
def normalizeTitle (s : String) : String := String.mk (normalizeTitleL s.data)

/-- A matcher decides whether a regex pattern matches at the current
position (all eight edition-variant patterns end in `.*$`, which always
succeeds, so a Bool suffices). -/
abbrev Matcher := List Char → Bool

/-- The trailing `.*$` of every edition-variant pattern (the analysed keys
contain no newline, where `$` could otherwise block the match). -/
def trueM : Matcher := fun _ => true

/-- Case-insensitive literal (patterns run under `re.IGNORECASE`). -/
def litCI (w : List Char) (k : Matcher) : Matcher := fun l =>
  ((l.take w.length).map Char.toLower == w) && k (l.drop w.length)

/-- Pattern element `\s+` followed by continuation `k`; the maximal run is
consumed, which matches regex backtracking because every continuation here
starts with a non-whitespace character. -/
def ws1M (k : Matcher) : Matcher := fun l =>
  match l with
  | c :: r => isSp c && k (r.dropWhile isSp)
  | [] => false

/-- Pattern element `\s*` followed by continuation `k`. -/
def ws0M (k : Matcher) : Matcher := fun l => k (l.dropWhile isSp)

/-- Regex alternation of two branches (used for the group `(and\s*)?`). -/
def altM (k1 k2 : Matcher) : Matcher := fun l => k1 l || k2 l

/-- Pattern element `\d{4}` followed by continuation `k`. -/
def digits4M (k : Matcher) : Matcher := fun l =>
  decide ((l.take 4).length = 4) && (l.take 4).all Char.isDigit && k (l.drop 4)

/-- Pattern `\s+the\s+complete.*$` (merger.py:88). -/
def patTheComplete : Matcher :=
  ws1M (litCI "the".data (ws1M (litCI "complete".data trueM)))

/-- Pattern `\s+complete\s*(and\s*)?uncut.*$` (merger.py:89). -/
def patCompleteUncut : Matcher :=
  ws1M (litCI "complete".data (ws0M (altM
    (litCI "and".data (ws0M (litCI "uncut".data trueM)))
    (litCI "uncut".data trueM))))

/-- Pattern `\s+uncut\s*edition.*$` (merger.py:90). -/
def patUncutEdition : Matcher :=
  ws1M (litCI "uncut".data (ws0M (litCI "edition".data trueM)))

/-- Pattern `\s+expanded\s*edition.*$` (merger.py:91). -/
def patExpandedEdition : Matcher :=
  ws1M (litCI "expanded".data (ws0M (litCI "edition".data trueM)))

/-- Pattern `\s+special\s*edition.*$` (merger.py:92). -/
def patSpecialEdition : Matcher :=
  ws1M (litCI "special".data (ws0M (litCI "edition".data trueM)))

/-- Pattern `\s+illustrated\s*edition.*$` (merger.py:93). -/
def patIllustratedEdition : Matcher :=
  ws1M (litCI "illustrated".data (ws0M (litCI "edition".data trueM)))

/-- Pattern `\s+directors\s*cut.*$` (merger.py:94). -/
def patDirectorsCut : Matcher :=
  ws1M (litCI "directors".data (ws0M (litCI "cut".data trueM)))

/-- Pattern `\s+\d{4}\s*edition.*$` (merger.py:95). -/
def patYearEdition : Matcher :=
  ws1M (digits4M (ws0M (litCI "edition".data trueM)))

/-- Leftmost index at which a matcher succeeds. -/
def findM (m : Matcher) : List Char → Option Nat
  | [] => if m [] then some 0 else none
  | c :: t => if m (c :: t) then some 0 else (findM m t).map (· + 1)

/-- One `re.sub(pattern, "", result)` step for a pattern ending in `.*$`:
everything from the leftmost match position onward is removed. -/
def subM (m : Matcher) (l : List Char) : List Char :=
  match findM m l with
  | some i => l.take i
  | none => l

/-- The eight edition-variant patterns in source order (merger.py:87-96). -/
def basePatterns : List Matcher :=
  [patTheComplete, patCompleteUncut, patUncutEdition, patExpandedEdition,
   patSpecialEdition, patIllustratedEdition, patDirectorsCut, patYearEdition]

/-- `BookMerger._extract_base_title` (merger.py:84-100): apply the eight
suffix-removal substitutions in order, then strip. -/
def extractBaseTitleL (l : List Char) : List Char :=
  pyStrip (basePatterns.foldl (fun acc m => subM m acc) l)

/-- String wrapper for `BookMerger._extract_base_title`. -/
def extractBaseTitle (s : String) : String := String.mk (extractBaseTitleL s.data)

/-- `BookMerger._is_existing` (merger.py:64-82): exact key match, then
base-title match, then shared-base match guarded by length greater than 3. -/
def isExisting (key : String) (exN : List String) : Bool :=
  if exN.contains key then true
  else
    let base := extractBaseTitle key
    if base != key && exN.contains base then true
    else exN.any (fun e => base == extractBaseTitle e && decide (base.length > 3))

/-- A Python value as it appears in the book records: string, int or bool. -/
inductive PyVal where
  | str (s : String)
  | int (n : Int)
  | bool (b : Bool)
deriving DecidableEq, Repr

/-- Python truthiness of a `PyVal` (`not value`, `if value`). -/
def truthy : PyVal → Bool
  | .str s => s != ""
  | .int n => n != 0
  | .bool b => b

/-- Python `len` as used by `_merge_book_data` on the `Raw_Info` field;
only string values are measured there (a non-string would raise in Python,
and both source adapters store strings in `Raw_Info`). -/
def pyLen : PyVal → Nat
  | .str s => s.length
  | _ => 0

/-- View a `PyVal` as a string; `merge` passes the `Titre_VO` value to
`_normalize`, which would raise in Python on a non-string, so only the
string case is meaningful. -/
def asStr : PyVal → String
  | .str s => s
  | _ => ""

/-- View a `PyVal` as an int (`Annee_VO` values). -/
def asInt : PyVal → Int
  | .int n => n
  | _ => 0

/-- A Python dict with string keys, as an insertion-ordered association
list (keys unique by construction, as in Python). -/
abbrev Dict := List (String × PyVal)

/-- Python `d.get(k, dflt)`. -/
def dget (d : Dict) (k : String) (dflt : PyVal) : PyVal :=
  match d.find? (fun kv => kv.1 == k) with
  | some kv => kv.2
  | none => dflt

/-- Python `k in d`. -/
def dmem (d : Dict) (k : String) : Bool := d.any (fun kv => kv.1 == k)

/-- Python `d[k] = v`: overwrite in place, or append a new key at the end
(Python dicts preserve insertion order). -/
def dset (d : Dict) (k : String) (v : PyVal) : Dict :=
  if dmem d k then d.map (fun kv => if kv.1 == k then (k, v) else kv)
  else d ++ [(k, v)]

/-- `BookMerger._merge_book_data` (merger.py:102-108): for each field of
`new`, overwrite `ex` when the key is absent or its value falsy; overwrite
`Raw_Info` additionally when the incoming string is strictly longer. -/
def mergeBookData (ex new : Dict) : Dict :=
  new.foldl (fun acc kv =>
    if !dmem acc kv.1 || !truthy (dget acc kv.1 (.str "")) then dset acc kv.1 kv.2
    else if kv.1 == "Raw_Info" && truthy kv.2 &&
        decide (pyLen kv.2 > pyLen (dget acc kv.1 (.str ""))) then dset acc kv.1 kv.2
    else acc) ex

/-- Heap of Python dict objects, addressed by id; models reference
semantics (mutating a stored dict mutates the caller's dict). -/
abbrev Heap := Nat → Dict

/-- Update the heap at one id. -/
def hset (h : Heap) (i : Nat) (d : Dict) : Heap := fun j => if j = i then d else h j

/-- Lookup in the `all_books` accumulator (normalized key to dict id). -/
def lookupKey (books : List (String × Nat)) (k : String) : Option Nat :=
  match books.find? (fun kv => kv.1 == k) with
  | some kv => some kv.2
  | none => none

/-- One candidate step of `BookMerger.merge` (merger.py:30-47): skip
falsy-titled dicts, skip existing keys, seed a new key with the incoming
dict (by reference), or fold a repeated key into the stored dict in place. -/
def mergeStep (exN : List String) (st : Heap × List (String × Nat)) (bid : Nat) :
    Heap × List (String × Nat) :=
  let h := st.1
  let books := st.2
  let tval := dget (h bid) "Titre_VO" (.str "")
  if !truthy tval then st
  else
    let key := mergerNormalize (asStr tval)
    if isExisting key exN then st
    else
      match lookupKey books key with
      | none => (h, books ++ [(key, bid)])
      | some eid => (hset h eid (mergeBookData (h eid) (h bid)), books)

/-- `BookMerger.merge` (merger.py:10-51) over the heap: normalize the
known titles once, then fold every candidate of every source in order.
Returns the final heap and the `all_books` accumulator (key, dict id)
in insertion order. -/
def mergeH (sources : List (List Nat)) (existingTitles : List String) (h : Heap) :
    Heap × List (String × Nat) :=
  (sources.flatten).foldl (mergeStep (existingTitles.map mergerNormalize)) (h, [])

/-- The list `merge` returns: `list(all_books.values())`, read from the
final heap. -/
def mergeResult (sources : List (List Nat)) (existingTitles : List String) (h : Heap) :
    List Dict :=
  ((mergeH sources existingTitles h).2).map (fun kv => (mergeH sources existingTitles h).1 kv.2)

/-- Inner loop body of `levenshtein_distance` (main.py:38-44): given the
previous row's tail, `prev_row[j]` and `curr_row[j]`, extend the current
row over the remaining characters of `s2`. -/
def levRowAux (c1 : Char) : List Char → List Nat → Nat → Nat → List Nat
  | [], _, _, _ => []
  | _ :: _, [], _, _ => []
  | c2 :: t, pn :: pt, pj, qj =>
    let q := min (pn + 1) (min (qj + 1) (pj + (if c1 == c2 then 0 else 1)))
    q :: levRowAux c1 t pt pn q

/-- Outer loop of `levenshtein_distance` (main.py:38-45): one row per
character of `s1`, starting from `range(len(s2) + 1)`. -/
def levLoop (s2 : List Char) : List Char → Nat → List Nat → List Nat
  | [], _, prev => prev
  | c1 :: rest, i, prev =>
    levLoop s2 rest (i + 1) ((i + 1) :: levRowAux c1 s2 prev.tail (prev.headD 0) (i + 1))

/-- `levenshtein_distance` (main.py:31-46): swap so the first argument is
the longer string, handle the empty case, then run the row dynamic
program and return the last entry of the final row. -/
def levenshteinDistance (s1 s2 : String) : Nat :=
  let a := if s1.data.length < s2.data.length then s2.data else s1.data
  let b := if s1.data.length < s2.data.length then s1.data else s2.data
  if b.isEmpty then a.length
  else (levLoop b a 0 (List.range (b.length + 1))).getLastD 0

/-- Classic Wagner-Fischer edit distance over prefix lengths: `wfDist s t
i j` is the unit-cost insertion/deletion/substitution distance between the
first `i` characters of `s` and the first `j` characters of `t`. -/
def wfDist (s t : List Char) : Nat → Nat → Nat
  | 0, j => j
  | i + 1, 0 => i + 1
  | i + 1, j + 1 =>
    min (wfDist s t i (j + 1) + 1)
      (min (wfDist s t (i + 1) j + 1)
        (wfDist s t i j + (if s.getD i ' ' == t.getD j ' ' then 0 else 1)))
  termination_by i j => (i, j)

/-- The classic unit-cost edit distance between two character lists. -/
def editDist (s t : List Char) : Nat := wfDist s t s.length t.length

/-- `is_similar_title` (main.py:49-62).  Python compares IEEE doubles; the
embedding uses exact rationals (`ratio >= threshold` with `ratio = 1 -
distance / max_len`), which agrees on the analysed comparisons. -/
def isSimilarTitle (t1 t2 : String) (threshold : ℚ) : Bool :=
  if t1 == "" || t2 == "" then false
  else if t1 == t2 then true
  else if t1.length < 5 || t2.length < 5 then false
  else
    decide ((1 : ℚ) - (levenshteinDistance t1 t2 : ℚ) /
      ((max t1.length t2.length : Nat) : ℚ) ≥ threshold)

/-- The default similarity threshold `0.85` of `is_similar_title`. -/
def defaultThreshold : ℚ := 85 / 100

/-- Tag of a table cell: `td` or `th` (the only tags `_parse_row` reads). -/
inductive CellTag where
  | td
  | th
deriving DecidableEq, Repr

/-- A table cell as `_parse_row` observes it through BeautifulSoup:
its tag, whether it carries `scope="row"`, its stripped text, and the
stripped texts of its first hyperlink, first italic element, and first
hyperlink inside that italic element, when present. -/
structure Cell where
  tag : CellTag
  scopeRow : Bool
  text : String
  link : Option String
  italic : Option String
  italicLink : Option String
deriving DecidableEq, Repr

/-- A table row: its cells in document order. -/
abbrev Row := List Cell

/-- `re.search(r"\d{4}", text)` then `int(...)`: value of the leftmost run
of four consecutive digits, if any. -/
def find4digits : List Char → Option Int
  | a :: b :: c :: d :: rest =>
    if a.isDigit && b.isDigit && c.isDigit && d.isDigit then
      some ((a.toNat - 48) * 1000 + (b.toNat - 48) * 100 + (c.toNat - 48) * 10 +
        (d.toNat - 48) : Nat)
    else find4digits (b :: c :: d :: rest)
  | _ => none

/-- Helper: `dropWhile` never lengthens a list. -/
theorem dropWhileLenLe (p : Char → Bool) (l : List Char) :
    (l.dropWhile p).length ≤ l.length := by
  induction l with
  | nil => simp [List.dropWhile]
  | cons a t ih =>
    by_cases h : p a
    · simp only [List.dropWhile, h]
      exact Nat.le_succ_of_le ih
    · simp [List.dropWhile, h]

/-- Helper: `leadsWith w l` forces `l` to be at least as long as `w`. -/
theorem leadsWithLen (w l : List Char) (h : leadsWith w l = true) :
    w.length ≤ l.length := by
  induction w generalizing l with
  | nil => simp
  | cons a w ih =>
    cases l with
    | nil => simp [leadsWith] at h
    | cons b t =>
      simp only [leadsWith, Bool.and_eq_true] at h
      simpa using Nat.succ_le_succ (ih t h.2)

/-- Fuel-driven core of `removeRefs`; the fuel only bounds the recursion
depth (one unit per consumed character, so `l.length` always suffices)
and keeps the definition structurally recursive, hence kernel-reducible. -/
def removeRefsF : Nat → List Char → List Char
  | 0, l => l
  | _ + 1, [] => []
  | fuel + 1, c :: rest =>
    if c == '[' then
      if !(rest.takeWhile Char.isDigit).isEmpty &&
          (rest.dropWhile Char.isDigit).head? == some ']' then
        removeRefsF fuel (rest.dropWhile Char.isDigit).tail
      else c :: removeRefsF fuel rest
    else c :: removeRefsF fuel rest

/-- `re.sub(r"\[\d+\]", "", title)` (wikipedia.py:160): remove every
bracketed numeric reference, scanning left to right. -/
def removeRefs (l : List Char) : List Char := removeRefsF l.length l

/-- Case-insensitive literal prefix test (for `re.IGNORECASE` patterns;
`w` is given lowercase). -/
def leadsWithCI (w l : List Char) : Bool := (l.take w.length).map Char.toLower == w

/-- Helper: `leadsWithCI w l` forces `l` to be at least as long as `w`. -/
theorem leadsWithCILen (w l : List Char) (h : leadsWithCI w l = true) :
    w.length ≤ l.length := by
  simp only [leadsWithCI, beq_iff_eq] at h
  have := congrArg List.length h
  simp only [List.length_map, List.length_take] at this
  omega

/-- Fuel-driven core of `removeTag` (fuel bounds recursion depth as in
`removeRefsF`). -/
def removeTagF (w : List Char) : Nat → List Char → List Char
  | 0, l => l
  | _ + 1, [] => []
  | fuel + 1, c :: rest =>
    if leadsWithCI (('(' :: w) ++ [')']) ((c :: rest).dropWhile isSp) then
      removeTagF w fuel (((c :: rest).dropWhile isSp).drop (w.length + 2))
    else c :: removeTagF w fuel rest

/-- `re.sub(r"\s*\(WORD\)", "", title, flags=re.IGNORECASE)`
(wikipedia.py:162-164): remove every occurrence of optional whitespace
followed by the parenthesised word, scanning left to right. -/
def removeTag (w l : List Char) : List Char := removeTagF w l.length l

/-- `WikipediaService._clean_title` (wikipedia.py:157-165): drop bracketed
references and the parenthesised `novel`, `novella`, `collection`
annotations (in that order), then strip. -/
def cleanTitle (s : String) : String :=
  String.mk (pyStrip (removeTag "collection".data (removeTag "novella".data
    (removeTag "novel".data (removeRefs s.data)))))

/-- The publisher tokens filtered out of titles (wikipedia.py:133). -/
def publishers : List String :=
  ["doubleday", "viking", "signet", "scribner", "simon", "putnam"]

/-- Python `sub in s` on strings. -/
def strHasSub (s sub : String) : Bool := hasSub s.data sub.data

/-- `re.match(r"^[\d\-X]+$", text)`: the whole text is one or more digits,
hyphens or `X` (the ISBN/reference guard in the notes scan). -/
def identLike (s : String) : Bool :=
  !s.data.isEmpty && s.data.all (fun c => c.isDigit || c == '-' || c == 'X')

/-- The notes scan of `_parse_row` (wikipedia.py:138-144): walk the cells
from the end, take the first text longer than 15 characters that is not
identifier-like, truncated to 200 characters. -/
def findNotes (cells : List Cell) : String :=
  match cells.reverse.find? (fun c => decide (c.text.length > 15) && !identLike c.text) with
  | some c => String.mk (c.text.data.take 200)
  | none => ""

/-- Title text extraction of `_parse_row` (wikipedia.py:114-124): prefer a
hyperlink inside an italic element, then a bare hyperlink, then bare
italics, then the raw cell text. -/
def titleText (tc : Cell) : String :=
  match tc.italic, tc.italicLink with
  | some _, some t => t
  | _, _ =>
    match tc.link with
    | some t => t
    | none =>
      match tc.italic with
      | some t => t
      | none => tc.text

/-- Year extraction of `_parse_row` (wikipedia.py:84-90): the first
four-digit match in the first `td` cell's text, else 0. -/
def rowYear0 (row : Row) : Int :=
  match row.find? (fun c => c.tag == CellTag.td) with
  | none => 0
  | some td =>
    match find4digits td.text.data with
    | some y => y
    | none => 0

/-- `WikipediaService._parse_row` (wikipedia.py:78-155): resolve the year
from the first `td` cell with fallback to `previous_year` and the
`[1970, 2030]` validity window, locate the title cell, extract and clean
the title, reject short or publisher-like titles, scan for notes, and
build the record. -/
def parseRow (row : Row) (previousYear : Int) : Option Dict :=
  if row.length < 1 then none
  else
    let year1 := if rowYear0 row == 0 then previousYear else rowYear0 row
    let year2 :=
      if year1 < 1970 || year1 > 2030 then
        if 1970 ≤ previousYear && previousYear ≤ 2030 then previousYear else 0
      else year1
    if year2 == 0 then none
    else
      let titleCell? :=
        match row.find? (fun c => c.tag == CellTag.th && c.scopeRow) with
        | some c => some c
        | none => if row.length > 1 then row.get? 1 else none
      match titleCell? with
      | none => none
      | some tc =>
        let title := cleanTitle (titleText tc)
        if title.length < 2 then none
        else if publishers.any (fun p => strHasSub (String.mk (lowerL title.data)) p) then none
        else
          let notes := findNotes row
          some [("Titre_VO", .str title), ("Annee_VO", .int year2),
                ("Raw_Info", .str notes),
                ("Is_Bachman", .bool (strHasSub (String.mk (lowerL notes.data)) "bachman")),
                ("Is_Duplicate_or_Ignore", .bool false)]

/-- The row loop of `WikipediaService._parse_section` (wikipedia.py:64-76):
fold the rows carrying `current_year`, which is updated to the emitted
record's `Annee_VO` whenever a record is produced; emitted records gain
`Source` and `Section` fields. -/
def parseRows (sectionId : String) : List Row → Int → List Dict
  | [], _ => []
  | r :: rest, cur =>
    match parseRow r cur with
    | some b =>
      dset (dset b "Source" (.str "Wikipedia")) "Section" (.str sectionId) ::
        parseRows sectionId rest (asInt (dget b "Annee_VO" (.int 0)))
    | none => parseRows sectionId rest cur

/-- The title of the spec's base-title scenario, built without a literal
quote character: `Gwendy's Button Box` with an ASCII apostrophe. -/
def gwendyTitle : String := "Gwendy" ++ String.singleton apoC ++ "s Button Box"

/-- Candidate dict of the `Le Fléau` scenario: its title normalizes to
`le fleau complete uncut edition`. -/
def fleauCandidate : Dict :=
  [("Titre_VO", .str "Le Fleau Complete Uncut Edition"), ("Annee_VO", .int 1978),
   ("Raw_Info", .str ""), ("Is_Bachman", .bool false),
   ("Is_Duplicate_or_Ignore", .bool false)]

/-- One-dict heap for the `Le Fléau` scenario. -/
def fleauHeap : Heap := fun _ => fleauCandidate

/-- C3 counterexample: with known titles consisting of the accented
`Le Fléau`, the candidate normalizing to `le fleau complete uncut edition`
is NOT detected as existing (the merger's `_normalize` keeps the accent,
so the stripped base `le fleau` differs from the known key `le fléau`),
and `merge` returns the candidate instead of excluding it. -/
theorem C3_counterexample :
    mergerNormalize "Le Fleau Complete Uncut Edition" = "le fleau complete uncut edition"
    ∧ isExisting "le fleau complete uncut edition" (["Le Fléau"].map mergerNormalize) = false
    ∧ (mergeH [[0]] ["Le Fléau"] fleauHeap).2 = [("le fleau complete uncut edition", 0)] := by
  refine ⟨by decide, by decide, by decide⟩

/-- C3 amended: with a known title whose normalized key is the accentless
`le fleau`, the existence check succeeds through the base-title tier (the
candidate key is not an exact match, but its edition-stripped base equals
the known key) and `merge` excludes the candidate. -/
theorem C3_amended :
    isExisting (mergerNormalize "Le Fleau Complete Uncut Edition")
      (["Le Fleau"].map mergerNormalize) = true
    ∧ (["Le Fleau"].map mergerNormalize).contains
        (mergerNormalize "Le Fleau Complete Uncut Edition") = false
    ∧ extractBaseTitle (mergerNormalize "Le Fleau Complete Uncut Edition") = "le fleau"
    ∧ (["Le Fleau"].map mergerNormalize).contains "le fleau" = true
    ∧ (mergeH [[0]] ["Le Fleau"] fleauHeap).2 = [] := by
  refine ⟨by decide, by decide, by decide, by decide, by decide⟩

/-- C5 counterexample: the normalization the Cross-Source Merger uses for
its comparison keys is `BookMerger._normalize`, and it strips neither the
series prefixes nor French articles: the `Dark Tower` prefix and the
French article `le` survive in the merger's keys (while the workflow's
`normalize_title` does strip them). -/
theorem C5_counterexample :
    mergerNormalize "Dark Tower III: The Waste Lands" = "dark tower iii the waste lands"
    ∧ mergerNormalize "Dark Tower III: The Waste Lands"
        ≠ normalizeTitle "Dark Tower III: The Waste Lands"
    ∧ mergerNormalize "Le Fléau" = "le fléau"
    ∧ mergerNormalize "Le Fléau" ≠ normalizeTitle "Le Fléau" := by
  refine ⟨by decide, by decide, by decide, by decide⟩

/-- C5 amended: the full stripping pipeline (series prefixes with Roman or
Arabic numerals and a colon, the possessive-series `Gwendy` marker, and a
single leading English or French article) belongs to the workflow's
`normalize_title`; the merger's own `_normalize` strips only a single
leading English article before removing punctuation and collapsing
whitespace. -/
theorem C5_amended :
    normalizeTitle "Dark Tower III: The Waste Lands" = "waste lands"
    ∧ normalizeTitle "The Dark Tower VII: The Dark Tower" = "dark tower"
    ∧ normalizeTitle "La Tour Sombre II : Les Trois Cartes" = "trois cartes"
    ∧ normalizeTitle gwendyTitle = "button box"
    ∧ normalizeTitle "Le Fléau" = "fléau"
    ∧ normalizeTitle "Une Nuit" = "nuit"
    ∧ mergerNormalize "The Shining" = "shining"
    ∧ mergerNormalize "An Apt Pupil" = "apt pupil" := by
  refine ⟨by decide, by decide, by decide, by decide, by decide, by decide, by decide,
    by decide⟩

/-- C7 counterexample: `is_similar_title` is not reflexive on every
string — on the empty string the empty-input guard fires first and the
result is `false`. -/
theorem C7_counterexample : isSimilarTitle "" "" defaultThreshold = false := by decide

/-- C7 amended: `is_similar_title(s, s)` at the default threshold is true
for every non-empty string `s` (the exact-equality tier fires before the
length floor), and false only for the empty string. -/
theorem C7_reflexive (s : String) (h : s ≠ "") :
    isSimilarTitle s s defaultThreshold = true := by
  have hb : (s == "") = false := by
    cases hq : s == "" with
    | true => exact absurd (by simpa using hq) h
    | false => rfl
  simp [isSimilarTitle, hb]

/-- Witness for C7: the amended reflexivity instantiated at `Carrie`. -/
theorem C7_witness :
    ("Carrie" : String) ≠ "" ∧ isSimilarTitle "Carrie" "Carrie" defaultThreshold = true :=
  ⟨by decide, C7_reflexive "Carrie" (by decide)⟩

/-- Modelled from the claim's wording of per-row year resolution: a row
with no extracted year (0) inherits `prev`; a year outside `[1970, 2030]`
falls back to `prev` when `prev` is itself in the window, else 0. -/
def yearResolveSpec (raw prev : Int) : Int :=
  let y := if raw = 0 then prev else raw
  if 1970 ≤ y ∧ y ≤ 2030 then y
  else if 1970 ≤ prev ∧ prev ≤ 2030 then prev
  else 0

/-- The year computation of `_parse_row` (wikipedia.py:92-98) equals the
claim-side `yearResolveSpec`. -/
theorem yearCodeEqSpec (raw prev : Int) :
    (if (if raw == 0 then prev else raw) < 1970 || (if raw == 0 then prev else raw) > 2030
     then if 1970 ≤ prev && prev ≤ 2030 then prev else 0
     else (if raw == 0 then prev else raw)) = yearResolveSpec raw prev := by
  simp only [yearResolveSpec, beq_iff_eq, Bool.or_eq_true, Bool.and_eq_true,
    decide_eq_true_eq]
  by_cases h0 : raw = 0 <;> simp only [h0, if_true, if_false] <;>
    (repeat' split) <;> omega

/-- A plain data cell for the extractor scenarios. -/
def tdCell (t : String) : Cell := ⟨CellTag.td, false, t, none, none, none⟩

/-- A row-scoped header cell carrying an italicised, linked title. -/
def thCell (t : String) : Cell := ⟨CellTag.th, true, t, some t, some t, some t⟩

/-- Scenario row: valid year 1986. -/
def rowIt1986 : Row :=
  [tdCell "1986", thCell "It", tdCell "Follows the experiences of seven children"]

/-- Scenario row: out-of-window year 2199 following 1986. -/
def rowBad2199 : Row :=
  [tdCell "2199", thCell "Misery", tdCell "A psychological horror novel by King"]

/-- Scenario row: valid year 1977. -/
def rowRage : Row :=
  [tdCell "1977", thCell "Rage", tdCell "First novel published as Richard Bachman"]

/-- Scenario row: blank year cell following 1977. -/
def rowLongWalk : Row :=
  [tdCell "", thCell "The Long Walk", tdCell "Dystopian horror under the Bachman pen name"]

/-- The record `parseRow` emits for `rowIt1986` with accumulator 0. -/
def recIt1986 : Dict :=
  [("Titre_VO", .str "It"), ("Annee_VO", .int 1986),
   ("Raw_Info", .str "Follows the experiences of seven children"),
   ("Is_Bachman", .bool false), ("Is_Duplicate_or_Ignore", .bool false)]

/-- C9: in the Tabular Extractor's per-row year resolution, every emitted
record's year equals the claim's resolution rule `yearResolveSpec`
(no extracted year inherits `current_year`; an out-of-window year falls
back to a valid `current_year`, else 0); a row resolving to 0 produces no
record; and in the fold the accumulator carried forward is the emitted
row's resolved year: 2199 after 1986 resolves to 1986, and a blank-year
row after 1977 resolves to 1977. -/
theorem C9_year_resolution :
    (∀ (row : Row) (prev : Int) (b : Dict), parseRow row prev = some b →
      dget b "Annee_VO" (.int 0) = .int (yearResolveSpec (rowYear0 row) prev))
    ∧ (∀ (row : Row) (prev : Int), yearResolveSpec (rowYear0 row) prev = 0 →
      parseRow row prev = none)
    ∧ yearResolveSpec 2199 1986 = 1986
    ∧ yearResolveSpec 0 1977 = 1977
    ∧ (parseRows "Novels" [rowIt1986, rowBad2199] 0).map
        (fun d => dget d "Annee_VO" (.int 0)) = [.int 1986, .int 1986]
    ∧ (parseRows "Novels" [rowRage, rowLongWalk] 0).map
        (fun d => dget d "Annee_VO" (.int 0)) = [.int 1977, .int 1977] := by
  refine ⟨?_, ?_, by decide, by decide, by decide, by decide⟩
  · intro row prev b hb
    simp only [parseRow] at hb
    rw [yearCodeEqSpec (rowYear0 row) prev] at hb
    split at hb
    · exact absurd hb (by simp)
    · split at hb
      · exact absurd hb (by simp)
      · split at hb
        · exact absurd hb (by simp)
        · split at hb
          · exact absurd hb (by simp)
          · split at hb
            · exact absurd hb (by simp)
            · cases hb
              rfl
  · intro row prev h
    simp only [parseRow]
    rw [yearCodeEqSpec (rowYear0 row) prev, h]
    split
    · rfl
    · simp

/-- Witness for C9: the year-resolution parts instantiated on the
concrete scenario rows. -/
theorem C9_witness :
    dget recIt1986 "Annee_VO" (.int 0) = .int (yearResolveSpec (rowYear0 rowIt1986) 0)
    ∧ parseRow rowLongWalk 0 = none :=
  ⟨C9_year_resolution.1 rowIt1986 0 recIt1986 (by decide),
   C9_year_resolution.2.1 rowLongWalk 0 (by decide)⟩

/-- Helper: `List.contains` agrees with membership for strings. -/
theorem containsIffMem (exN : List String) (s : String) :
    exN.contains s = true ↔ s ∈ exN := by
  simp [List.contains]

/-- Helper: a successful `all_books` lookup means the key is present. -/
theorem lookupKeySome (books : List (String × Nat)) (k : String) (i : Nat)
    (h : lookupKey books k = some i) : k ∈ books.map Prod.fst := by
  simp only [lookupKey] at h
  cases hf : books.find? (fun kv => kv.1 == k) with
  | none => rw [hf] at h; exact absurd h (by simp)
  | some kv =>
    have hm := List.mem_of_find?_eq_some hf
    have hp := List.find?_some hf
    simp only [beq_iff_eq] at hp
    exact hp ▸ List.mem_map_of_mem Prod.fst hm

/-- Helper: a failed `all_books` lookup means the key is absent. -/
theorem lookupKeyNone (books : List (String × Nat)) (k : String)
    (h : lookupKey books k = none) : ∀ kb ∈ books, kb.1 ≠ k := by
  simp only [lookupKey] at h
  cases hf : books.find? (fun kv => kv.1 == k) with
  | some kv => rw [hf] at h; exact absurd h (by simp)
  | none =>
    intro kb hkb
    have := List.find?_eq_none.mp hf kb hkb
    simpa using this

/-- Helper: any property of accumulator entries that holds for entries
added with a non-existing key is preserved by one merge step. -/
theorem mergeStepInv (exN : List String) (st : Heap × List (String × Nat)) (bid : Nat)
    (P : String × Nat → Prop)
    (hinv : ∀ kb ∈ st.2, P kb)
    (hnew : ∀ key, isExisting key exN = false → P (key, bid)) :
    ∀ kb ∈ (mergeStep exN st bid).2, P kb := by
  intro kb hkb
  simp only [mergeStep] at hkb
  split at hkb
  · exact hinv kb hkb
  · split at hkb
    · exact hinv kb hkb
    · rename_i hex
      split at hkb
      · rcases List.mem_append.mp hkb with hm | hm
        · exact hinv kb hm
        · have : kb = (mergerNormalize (asStr (dget (st.1 bid) "Titre_VO" (.str ""))), bid) := by
            simpa using hm
          subst this
          exact hnew _ (by simpa using hex)
      · exact hinv kb hkb

/-- Helper: `mergeStepInv` lifted to the whole candidate fold. -/
theorem mergeFoldInv (exN : List String) (l : List Nat)
    (P : String × Nat → Prop)
    (hnew : ∀ key bid, isExisting key exN = false → P (key, bid)) :
    ∀ st : Heap × List (String × Nat), (∀ kb ∈ st.2, P kb) →
      ∀ kb ∈ (l.foldl (mergeStep exN) st).2, P kb := by
  induction l with
  | nil => intro st hinv; exact hinv
  | cons bid rest ih =>
    intro st hinv
    exact ih (mergeStep exN st bid) (mergeStepInv exN st bid P hinv (fun k => hnew k bid))

/-- The spec's three-tier existence rule: (a) exact key match, (b) the
candidate's edition-stripped base equals a known key, (c) the base equals
some known key's base and is longer than 3 characters. -/
def threeTierRule (key : String) (exN : List String) : Prop :=
  key ∈ exN ∨ extractBaseTitle key ∈ exN ∨
    ∃ e ∈ exN, extractBaseTitle key = extractBaseTitle e ∧ 3 < (extractBaseTitle key).length

/-- Helper: `_is_existing` decides exactly the three-tier rule (the
code's extra `base != key` guard in tier (b) is redundant, because when
`base = key` tier (a) has already answered). -/
theorem isExistingIffTier (key : String) (exN : List String) :
    isExisting key exN = true ↔ threeTierRule key exN := by
  simp only [isExisting]
  split_ifs with h1 h2
  · exact iff_of_true rfl (Or.inl ((containsIffMem exN key).mp h1))
  · simp only [Bool.and_eq_true, bne_iff_ne, ne_eq] at h2
    exact iff_of_true rfl (Or.inr (Or.inl ((containsIffMem exN _).mp h2.2)))
  · constructor
    · intro h
      rcases List.any_eq_true.mp h with ⟨e, he, hp⟩
      simp only [Bool.and_eq_true, beq_iff_eq, decide_eq_true_eq] at hp
      exact Or.inr (Or.inr ⟨e, he, hp.1, hp.2⟩)
    · intro h
      rcases h with hk | hb | ⟨e, he, hbe, hlen⟩
      · exact absurd ((containsIffMem exN key).mpr hk) h1
      · by_cases hq : extractBaseTitle key = key
        · exact absurd ((containsIffMem exN key).mpr (hq ▸ hb)) h1
        · exact absurd (by
            simp only [Bool.and_eq_true, bne_iff_ne, ne_eq]
            exact ⟨hq, (containsIffMem exN _).mpr hb⟩) h2
      · exact List.any_eq_true.mpr ⟨e, he, by
          simp only [Bool.and_eq_true, beq_iff_eq, decide_eq_true_eq]
          exact ⟨hbe, hlen⟩⟩

/-- C2: exclusion is decided by the three-tier rule (`_is_existing` is
equivalent to it), and every accumulator entry `merge` produces has a key
the rule rejects — a candidate matching the rule is never present in the
output. -/
theorem C2_exclusion_rule :
    (∀ (key : String) (exN : List String),
      isExisting key exN = true ↔ threeTierRule key exN)
    ∧ (∀ (h : Heap) (sources : List (List Nat)) (ex : List String)
        (kb : String × Nat), kb ∈ (mergeH sources ex h).2 →
        isExisting kb.1 (ex.map mergerNormalize) = false) := by
  refine ⟨isExistingIffTier, ?_⟩
  intro h sources ex kb hkb
  exact mergeFoldInv (ex.map mergerNormalize) sources.flatten
    (fun kb => isExisting kb.1 (ex.map mergerNormalize) = false)
    (fun key bid hk => hk) (h, []) (by simp) kb hkb

/-- Heap holding a `Night Shift` candidate at id 0. -/
def nsHeap : Heap := fun _ =>
  [("Titre_VO", .str "Night Shift"), ("Annee_VO", .int 1978), ("Raw_Info", .str "")]

/-- Witness for C2: the exclusion part instantiated on a concrete merge
whose accumulator holds the key `night shift`. -/
theorem C2_witness :
    isExisting ("night shift", 0).1 (["The Stand"].map mergerNormalize) = false :=
  C2_exclusion_rule.2 nsHeap [[0]] ["The Stand"] ("night shift", 0) (by decide)

/-- Helper: one merge step keeps the accumulator keys duplicate-free. -/
theorem mergeStepNodup (exN : List String) (st : Heap × List (String × Nat)) (bid : Nat)
    (h : (st.2.map Prod.fst).Nodup) :
    (((mergeStep exN st bid).2).map Prod.fst).Nodup := by
  simp only [mergeStep]
  split
  · exact h
  · split
    · exact h
    · split
      · rename_i heq
        have hnot := lookupKeyNone _ _ heq
        simp only [List.map_append, List.map_cons, List.map_nil]
        rw [List.nodup_append]
        refine ⟨h, List.nodup_singleton _, ?_⟩
        intro a ha hb
        simp only [List.mem_singleton] at hb
        rcases List.mem_map.mp ha with ⟨kb, hkb, hfst⟩
        exact hnot kb hkb (hfst.trans hb)
      · exact h

/-- Helper: `mergeStepNodup` lifted to the whole candidate fold. -/
theorem mergeFoldNodup (exN : List String) (l : List Nat) :
    ∀ st : Heap × List (String × Nat), (st.2.map Prod.fst).Nodup →
      (((l.foldl (mergeStep exN) st).2).map Prod.fst).Nodup := by
  induction l with
  | nil => intro st h; exact h
  | cons bid rest ih =>
    intro st h
    exact ih (mergeStep exN st bid) (mergeStepNodup exN st bid h)

/-- First Pet Sematary sighting: short note, no French year. -/
def petDictA : Dict :=
  [("Titre_VO", .str "Pet Sematary"), ("Annee_VO", .int 1983),
   ("Raw_Info", .str "short note"), ("Annee_FR", .int 0)]

/-- Second Pet Sematary sighting: longer note, French year set, no year. -/
def petDictB : Dict :=
  [("Titre_VO", .str "Pet Sematary"), ("Annee_VO", .int 0),
   ("Raw_Info", .str "a considerably longer note"), ("Annee_FR", .int 1984)]

/-- Heap with the two Pet Sematary sightings at ids 0 and 1. -/
def petHeap : Heap := fun n => if n = 0 then petDictA else if n = 1 then petDictB else []

/-- The folded Pet Sematary record: longest note kept, empty fields
backfilled, non-empty fields untouched. -/
def petMergedDict : Dict :=
  [("Titre_VO", .str "Pet Sematary"), ("Annee_VO", .int 1983),
   ("Raw_Info", .str "a considerably longer note"), ("Annee_FR", .int 1984)]

/-- C4: one merge pass keeps exactly one accumulator entry per normalized
key (the key list is duplicate-free for every input), and on the spec's
Pet Sematary scenario the two sightings fold into a single record whose
note is the longer contribution, whose empty `Annee_FR` is backfilled from
the second source, and whose non-empty `Annee_VO` keeps the first value. -/
theorem C4_unique_fold :
    (∀ (h : Heap) (sources : List (List Nat)) (ex : List String),
      (((mergeH sources ex h).2).map Prod.fst).Nodup)
    ∧ (mergeH [[0], [1]] [] petHeap).2 = [("pet sematary", 0)]
    ∧ mergeResult [[0], [1]] [] petHeap = [petMergedDict]
    ∧ dget petMergedDict "Raw_Info" (.str "") = .str "a considerably longer note"
    ∧ dget petMergedDict "Annee_FR" (.int 0) = .int 1984
    ∧ dget petMergedDict "Annee_VO" (.int 0) = .int 1983 := by
  refine ⟨?_, by decide, by decide, by decide, by decide, by decide⟩
  intro h sources ex
  exact mergeFoldNodup (ex.map mergerNormalize) sources.flatten (h, []) (by simp)

/-- The normalized keys of the candidates `merge` will consider: ids with
a truthy title, projected through the merger's normalizer. -/
def candKeys (h : Heap) (ids : List Nat) : List String :=
  (ids.filter (fun bid => truthy (dget (h bid) "Titre_VO" (.str "")))).map
    (fun bid => mergerNormalize (asStr (dget (h bid) "Titre_VO" (.str ""))))

/-- Helper: when the candidate keys are pairwise distinct, no fold into a
stored dict ever happens, so the heap — every caller-owned dict — is left
untouched. -/
theorem mergeFoldHeapId (exN : List String) (l : List Nat) (h0 : Heap) :
    ∀ books : List (String × Nat), (candKeys h0 l).Nodup →
      (∀ k ∈ books.map Prod.fst, k ∉ candKeys h0 l) →
      (l.foldl (mergeStep exN) (h0, books)).1 = h0 := by
  induction l with
  | nil => intro books _ _; rfl
  | cons bid rest ih =>
    intro books hnd hdisj
    by_cases ht : truthy (dget (h0 bid) "Titre_VO" (.str ""))
    · have hck : candKeys h0 (bid :: rest) =
          mergerNormalize (asStr (dget (h0 bid) "Titre_VO" (.str ""))) :: candKeys h0 rest := by
        simp [candKeys, List.filter_cons, ht]
      rw [hck] at hnd hdisj
      have hnd' := List.nodup_cons.mp hnd
      by_cases hex : isExisting (mergerNormalize (asStr (dget (h0 bid) "Titre_VO" (.str ""))))
          exN = true
      · have hstep : mergeStep exN (h0, books) bid = (h0, books) := by
          simp only [mergeStep, ht, hex]
          simp
        rw [List.foldl_cons, hstep]
        exact ih books hnd'.2 (fun k hk => fun hmem => hdisj k hk (List.mem_cons_of_mem _ hmem))
      · have hlk : lookupKey books
            (mergerNormalize (asStr (dget (h0 bid) "Titre_VO" (.str "")))) = none := by
          cases hq : lookupKey books
              (mergerNormalize (asStr (dget (h0 bid) "Titre_VO" (.str "")))) with
          | none => rfl
          | some eid =>
            exact absurd (List.mem_cons_self _ _)
              (hdisj _ (lookupKeySome _ _ _ hq))
        have hstep : mergeStep exN (h0, books) bid =
            (h0, books ++ [(mergerNormalize (asStr (dget (h0 bid) "Titre_VO" (.str ""))), bid)]) := by
          simp only [mergeStep]
          simp [ht, hex, hlk]
        rw [List.foldl_cons, hstep]
        apply ih _ hnd'.2
        intro k hk
        simp only [List.map_append, List.map_cons, List.map_nil, List.mem_append,
          List.mem_singleton] at hk
        rcases hk with hk | hk
        · exact fun hmem => hdisj k hk (List.mem_cons_of_mem _ hmem)
        · subst hk
          exact hnd'.1
    · have hck : candKeys h0 (bid :: rest) = candKeys h0 rest := by
        simp [candKeys, List.filter_cons, ht]
      rw [hck] at hnd hdisj
      have hstep : mergeStep exN (h0, books) bid = (h0, books) := by
        simp only [mergeStep]
        simp [ht]
      rw [List.foldl_cons, hstep]
      exact ih books hnd hdisj

/-- C1 counterexample: `merge` is not free of side effects on its inputs —
with two same-key candidates the first caller-owned dict is mutated in
place (its note overwritten, its empty field filled). -/
theorem C1_counterexample : (mergeH [[0], [1]] [] petHeap).1 0 ≠ petHeap 0 := by decide

/-- C1 amended: `merge` never touches the known-title set (it only reads
it), and it leaves every input dict unchanged provided no two truthy-titled
candidates across the sources share a normalized key; when a key repeats,
the first-seen dict for that key is mutated in place by the field-level
merge (and the returned records alias the input dicts). -/
theorem C1_no_mutation (h : Heap) (sources : List (List Nat)) (ex : List String)
    (hnd : (candKeys h sources.flatten).Nodup) :
    (mergeH sources ex h).1 = h :=
  mergeFoldHeapId (ex.map mergerNormalize) sources.flatten h [] hnd (by simp)

/-- Heap with two distinct-keyed candidates for the C1 witness. -/
def distinctHeap : Heap := fun n =>
  if n = 0 then [("Titre_VO", .str "Carrie"), ("Raw_Info", .str "first novel")]
  else if n = 1 then [("Titre_VO", .str "Christine"), ("Raw_Info", .str "a car")]
  else []

/-- Witness for C1: on two candidates with distinct normalized keys the
final heap is the input heap. -/
theorem C1_witness :
    (candKeys distinctHeap ([[0], [1]] : List (List Nat)).flatten).Nodup
    ∧ (mergeH [[0], [1]] [] distinctHeap).1 = distinctHeap :=
  ⟨by decide, C1_no_mutation distinctHeap [[0], [1]] [] (by decide)⟩

/-- Helper: the Wagner-Fischer distance is symmetric (needed for the
argument swap in `levenshtein_distance`). -/
theorem wfDistComm (s t : List Char) : ∀ i j, wfDist s t i j = wfDist t s j i := by
  intro i
  induction i with
  | zero =>
    intro j
    cases j <;> simp [wfDist]
  | succ i ih =>
    intro j
    induction j with
    | zero => simp [wfDist]
    | succ j ihj =>
      rw [show wfDist s t (i+1) (j+1) =
        min (wfDist s t i (j + 1) + 1)
          (min (wfDist s t (i + 1) j + 1)
            (wfDist s t i j + (if s.getD i ' ' == t.getD j ' ' then 0 else 1))) from by
        rw [wfDist]]
      rw [show wfDist t s (j+1) (i+1) =
        min (wfDist t s j (i + 1) + 1)
          (min (wfDist t s (j + 1) i + 1)
            (wfDist t s j i + (if t.getD j ' ' == s.getD i ' ' then 0 else 1))) from by
        rw [wfDist]]
      rw [ih (j+1), ihj, ih j]
      have hc : (if s.getD i ' ' == t.getD j ' ' then (0:Nat) else 1) =
          (if t.getD j ' ' == s.getD i ' ' then (0:Nat) else 1) := by
        simp only [beq_iff_eq]
        by_cases h : s.getD i ' ' = t.getD j ' '
        · rw [if_pos h, if_pos h.symm]
        · rw [if_neg h, if_neg (fun hq => h hq.symm)]
      rw [hc]
      omega

/-- Helper: the inner row loop turns the row of distances for prefix
length `i` (from column `j+1` on) into the row for prefix length `i+1`. -/
theorem levRowAuxComputes (a b : List Char) :
    ∀ (cs : List Char) (j : Nat), cs = b.drop j → ∀ i : Nat,
      levRowAux (a.getD i ' ') cs
        ((List.range' (j + 1) cs.length).map (wfDist a b i))
        (wfDist a b i j) (wfDist a b (i + 1) j)
      = (List.range' (j + 1) cs.length).map (wfDist a b (i + 1)) := by
  intro cs
  induction cs with
  | nil =>
    intro j hj i
    simp [levRowAux]
  | cons c2 cs' ihcs =>
    intro j hj i
    have hc2 : b.getD j ' ' = c2 := by
      have h0 : (b.drop j)[0]? = b[j + 0]? := List.getElem?_drop b j 0
      rw [← hj] at h0
      simp only [List.getElem?_cons_zero, Nat.add_zero] at h0
      simp [List.getD, ← h0]
    have hcs' : cs' = b.drop (j + 1) := by
      have ht : (b.drop j).tail = b.drop (j + 1) := by
        rw [List.tail_drop]
      rw [← hj] at ht
      simpa using ht
    rw [show (c2 :: cs').length = cs'.length + 1 from rfl, List.range'_succ,
      List.map_cons]
    simp only [levRowAux]
    have hq : min (wfDist a b i (j + 1) + 1)
        (min (wfDist a b (i + 1) j + 1)
          (wfDist a b i j + if a.getD i ' ' == c2 then 0 else 1))
        = wfDist a b (i + 1) (j + 1) := by
      rw [show wfDist a b (i + 1) (j + 1) =
        min (wfDist a b i (j + 1) + 1)
          (min (wfDist a b (i + 1) j + 1)
            (wfDist a b i j + (if a.getD i ' ' == b.getD j ' ' then 0 else 1))) from by
        rw [wfDist]]
      rw [hc2]
    rw [hq, ihcs (j + 1) hcs' i, List.map_cons]

/-- Helper: the outer loop carries the full Wagner-Fischer row; starting
from the row for prefix `i` it ends with the row for the full string. -/
theorem levLoopComputes (a b : List Char) :
    ∀ (as : List Char) (i : Nat), as = a.drop i → i ≤ a.length →
      levLoop b as i ((List.range' 0 (b.length + 1)).map (wfDist a b i))
      = (List.range' 0 (b.length + 1)).map (wfDist a b a.length) := by
  intro as
  induction as with
  | nil =>
    intro i hi hle
    have hge : a.length ≤ i := by
      by_contra hlt
      push_neg at hlt
      have : a.drop i ≠ [] := by
        simp [List.drop_eq_nil_iff]
        omega
      exact this hi.symm
    have : i = a.length := le_antisymm hle hge
    subst this
    rfl
  | cons c1 as' ih =>
    intro i hi hle
    have hilt : i < a.length := by
      by_contra hge
      push_neg at hge
      have : a.drop i = [] := by
        simp [List.drop_eq_nil_iff]
        omega
      rw [this] at hi
      exact absurd hi (by simp)
    have hc1 : a.getD i ' ' = c1 := by
      have h0 : (a.drop i)[0]? = a[i + 0]? := List.getElem?_drop a i 0
      rw [← hi] at h0
      simp only [List.getElem?_cons_zero, Nat.add_zero] at h0
      simp [List.getD, ← h0]
    have has' : as' = a.drop (i + 1) := by
      have ht : (a.drop i).tail = a.drop (i + 1) := by
        rw [List.tail_drop]
      rw [← hi] at ht
      simpa using ht
    simp only [levLoop]
    have hrow : (i + 1) :: levRowAux c1 b
          (((List.range' 0 (b.length + 1)).map (wfDist a b i)).tail)
          (((List.range' 0 (b.length + 1)).map (wfDist a b i)).headD 0) (i + 1)
        = (List.range' 0 (b.length + 1)).map (wfDist a b (i + 1)) := by
      have h20 : wfDist a b (i + 1) 0 = i + 1 := by
        rw [wfDist]
      rw [List.range'_succ, List.map_cons]
      simp only [List.tail_cons, List.headD_cons]
      have hstep := levRowAuxComputes a b b 0 rfl i
      rw [hc1] at hstep
      simp only [Nat.zero_add] at hstep
      rw [h20] at hstep
      rw [List.map_cons, h20, hstep]
    rw [hrow]
    exact ih (i + 1) has' hilt

/-- Helper: the dynamic program returns the full-length Wagner-Fischer
distance. -/
theorem levFull (a b : List Char) :
    (levLoop b a 0 (List.range (b.length + 1))).getLastD 0 = wfDist a b a.length b.length := by
  have hinit : List.range (b.length + 1) = (List.range' 0 (b.length + 1)).map (wfDist a b 0) := by
    rw [List.range_eq_range']
    have : ∀ j, wfDist a b 0 j = j := by
      intro j; cases j <;> rw [wfDist]
    rw [List.map_congr_left (fun j _ => this j)]
    simp
  rw [hinit, levLoopComputes a b a 0 rfl (by omega)]
  rw [List.range'_1_concat, List.map_append, List.map_singleton]
  rw [List.getLastD_concat]
  rw [Nat.zero_add]

/-- `levenshtein_distance` computes the classic unit-cost
insertion/deletion/substitution edit distance. -/
theorem levenshteinEqEditDist (s1 s2 : String) :
    levenshteinDistance s1 s2 = editDist s1.data s2.data := by
  simp only [levenshteinDistance, editDist]
  split
  · rename_i hlt
    split
    · rename_i hemp
      have h0 : s1.data = [] := by simpa using hemp
      rw [h0]
      simp only [List.length_nil]
      have : ∀ j, wfDist ([] : List Char) s2.data 0 j = j := by
        intro j; cases j <;> rw [wfDist]
      rw [this]
    · rw [levFull]
      exact (wfDistComm s2.data s1.data _ _)
  · rename_i hge
    split
    · rename_i hemp
      have h0 : s2.data = [] := by simpa using hemp
      rw [h0]
      simp only [List.length_nil]
      have : ∀ i, wfDist s1.data ([] : List Char) i 0 = i := by
        intro i; cases i <;> rw [wfDist]
      rw [this]
    · rw [levFull]

/-- Modelled from the claim: false when either input is empty; true on
exact equality; false when either length is under 5; otherwise compare
`1 - d/max(len, len)` against the threshold, `d` the classic edit
distance. -/
def similarSpec (t1 t2 : String) (threshold : ℚ) : Bool :=
  if t1 = "" ∨ t2 = "" then false
  else if t1 = t2 then true
  else if t1.length < 5 ∨ t2.length < 5 then false
  else decide ((1 : ℚ) - (editDist t1.data t2.data : ℚ) /
    ((max t1.length t2.length : Nat) : ℚ) ≥ threshold)

/-- C8: `is_similar_title` implements exactly the claim's rule — empty
guard, equality tier, five-character floor, then the ratio test
`1 - d/max(len, len) >= threshold` with `d` the classic unit-cost edit
distance — and at the default threshold `The Shining` vs `The Shiming` is
similar. -/
theorem C8_similarity :
    (∀ (t1 t2 : String) (threshold : ℚ),
      isSimilarTitle t1 t2 threshold = similarSpec t1 t2 threshold)
    ∧ isSimilarTitle "The Shining" "The Shiming" defaultThreshold = true := by
  constructor
  · intro t1 t2 thr
    simp only [isSimilarTitle, similarSpec, beq_iff_eq, Bool.or_eq_true, decide_eq_true_eq]
    by_cases h1 : t1 = "" ∨ t2 = ""
    · simp [h1]
    · simp only [h1, if_false]
      by_cases h3 : t1 = t2
      · simp [h3]
      · simp only [h3, if_false]
        by_cases h4 : t1.length < 5 ∨ t2.length < 5
        · simp [h4]
        · simp only [h4, if_false]
          rw [levenshteinEqEditDist]
  · have hd : levenshteinDistance "The Shining" "The Shiming" = 1 := by decide
    have hl1 : ("The Shining" : String).length = 11 := by decide
    have hl2 : ("The Shiming" : String).length = 11 := by decide
    simp only [isSimilarTitle, hd, hl1, hl2]
    norm_num [defaultThreshold]
    exact ⟨by decide, by decide⟩

/-- A matcher is append-monotone: a match is not destroyed by extending
the input to the right (true of every edition-variant pattern, whose
munching is delimited by literals). -/
def monoM (m : Matcher) : Prop := ∀ xs ys, m xs = true → m (xs ++ ys) = true

/-- A matcher that fails on the empty input. -/
def nilF (m : Matcher) : Prop := m [] = false

/-- Helper: `.*$` is append-monotone. -/
theorem trueMMono : monoM trueM := fun _ _ _ => rfl

/-- Helper: literals preserve append-monotonicity. -/
theorem litCIMono (w : List Char) (k : Matcher) (hk : monoM k) : monoM (litCI w k) := by
  intro xs ys h
  simp only [litCI, Bool.and_eq_true, beq_iff_eq] at h ⊢
  have hlen : w.length ≤ xs.length := by
    have := congrArg List.length h.1
    simp only [List.length_map, List.length_take] at this
    omega
  constructor
  · rw [List.take_append_of_le_length hlen]
    exact h.1
  · rw [List.drop_append_of_le_length hlen]
    exact hk _ ys h.2

/-- Helper: a non-empty literal fails on empty input. -/
theorem litCINil (w : List Char) (hw : w ≠ []) (k : Matcher) : nilF (litCI w k) := by
  simp only [nilF, litCI, List.take_nil, List.map_nil, Bool.and_eq_false_iff]
  left
  simp only [beq_eq_false_iff_ne, ne_eq]
  exact fun h => hw h.symm

/-- Helper: `\s+` fails on empty input. -/
theorem ws1MNil (k : Matcher) : nilF (ws1M k) := rfl

/-- Helper: `\s+` preserves append-monotonicity when its continuation
fails on empty input. -/
theorem ws1MMono (k : Matcher) (hk : monoM k) (hn : nilF k) : monoM (ws1M k) := by
  intro xs ys h
  cases xs with
  | nil => exact absurd h (by simp [ws1M])
  | cons c r =>
    simp only [ws1M, List.cons_append, Bool.and_eq_true] at h ⊢
    refine ⟨h.1, ?_⟩
    have hne : r.dropWhile isSp ≠ [] := by
      intro hnil
      rw [hnil] at h
      exact absurd h.2 (by simp [nilF] at hn; simp [hn])
    rw [List.dropWhile_append]
    simp only [List.isEmpty_iff, hne, if_false]
    exact hk _ ys h.2

/-- Helper: `\s*` preserves append-monotonicity when its continuation
fails on empty input. -/
theorem ws0MMono (k : Matcher) (hk : monoM k) (hn : nilF k) : monoM (ws0M k) := by
  intro xs ys h
  simp only [ws0M] at h ⊢
  have hne : xs.dropWhile isSp ≠ [] := by
    intro hnil
    rw [hnil] at h
    exact absurd h (by simp [nilF] at hn; simp [hn])
  rw [List.dropWhile_append]
  simp only [List.isEmpty_iff, hne, if_false]
  exact hk _ ys h

/-- Helper: `\s*` fails on empty input when its continuation does. -/
theorem ws0MNil (k : Matcher) (hn : nilF k) : nilF (ws0M k) := by
  simp only [nilF, ws0M, List.dropWhile_nil]
  exact hn

/-- Helper: alternation preserves append-monotonicity. -/
theorem altMMono (k1 k2 : Matcher) (h1 : monoM k1) (h2 : monoM k2) : monoM (altM k1 k2) := by
  intro xs ys h
  simp only [altM, Bool.or_eq_true] at h ⊢
  rcases h with h | h
  · exact Or.inl (h1 _ ys h)
  · exact Or.inr (h2 _ ys h)

/-- Helper: alternation fails on empty input when both branches do. -/
theorem altMNil (k1 k2 : Matcher) (h1 : nilF k1) (h2 : nilF k2) : nilF (altM k1 k2) := by
  simp only [nilF, altM, Bool.or_eq_false_iff]
  exact ⟨h1, h2⟩

/-- Helper: `\d{4}` preserves append-monotonicity. -/
theorem digits4MMono (k : Matcher) (hk : monoM k) : monoM (digits4M k) := by
  intro xs ys h
  simp only [digits4M, Bool.and_eq_true, decide_eq_true_eq] at h ⊢
  have hlen : 4 ≤ xs.length := by
    have := h.1.1
    simp only [List.length_take] at this
    omega
  refine ⟨⟨?_, ?_⟩, ?_⟩
  · simp only [List.length_take, List.length_append]
    omega
  · rw [List.take_append_of_le_length hlen]
    exact h.1.2
  · rw [List.drop_append_of_le_length hlen]
    exact hk _ ys h.2

/-- Helper: `\d{4}` fails on empty input. -/
theorem digits4MNil (k : Matcher) : nilF (digits4M k) := by
  simp [nilF, digits4M]

/-- Helper: every edition-variant pattern is append-monotone and fails
on empty input. -/
theorem goodPatterns : ∀ m ∈ basePatterns, monoM m ∧ nilF m := by
  have hlit : ∀ (w : List Char), w ≠ [] → ∀ k, monoM k → monoM (litCI w k) ∧ nilF (litCI w k) :=
    fun w hw k hk => ⟨litCIMono w k hk, litCINil w hw k⟩
  have hw1 : ∀ k, monoM k → nilF k → monoM (ws1M k) ∧ nilF (ws1M k) :=
    fun k hk hn => ⟨ws1MMono k hk hn, ws1MNil k⟩
  have hw0 : ∀ k, monoM k → nilF k → monoM (ws0M k) ∧ nilF (ws0M k) :=
    fun k hk hn => ⟨ws0MMono k hk hn, ws0MNil k hn⟩
  intro m hm
  simp only [basePatterns, List.mem_cons, List.not_mem_nil, or_false] at hm
  rcases hm with h | h | h | h | h | h | h | h <;> subst h
  · exact hw1 _ (litCIMono _ _ (ws1MMono _ (litCIMono _ _ trueMMono)
      (litCINil _ (by decide) _))) (litCINil _ (by decide) _)
  · exact hw1 _ (litCIMono _ _ (ws0MMono _ (altMMono _ _
        (litCIMono _ _ (ws0MMono _ (litCIMono _ _ trueMMono) (litCINil _ (by decide) _)))
        (litCIMono _ _ trueMMono))
      (altMNil _ _ (litCINil _ (by decide) _) (litCINil _ (by decide) _))))
      (litCINil _ (by decide) _)
  · exact hw1 _ (litCIMono _ _ (ws0MMono _ (litCIMono _ _ trueMMono)
      (litCINil _ (by decide) _))) (litCINil _ (by decide) _)
  · exact hw1 _ (litCIMono _ _ (ws0MMono _ (litCIMono _ _ trueMMono)
      (litCINil _ (by decide) _))) (litCINil _ (by decide) _)
  · exact hw1 _ (litCIMono _ _ (ws0MMono _ (litCIMono _ _ trueMMono)
      (litCINil _ (by decide) _))) (litCINil _ (by decide) _)
  · exact hw1 _ (litCIMono _ _ (ws0MMono _ (litCIMono _ _ trueMMono)
      (litCINil _ (by decide) _))) (litCINil _ (by decide) _)
  · exact hw1 _ (litCIMono _ _ (ws0MMono _ (litCIMono _ _ trueMMono)
      (litCINil _ (by decide) _))) (litCINil _ (by decide) _)
  · exact hw1 _ (digits4MMono _ (ws0MMono _ (litCIMono _ _ trueMMono)
      (litCINil _ (by decide) _))) (digits4MNil _)

/-- No position of `l` matches `m`. -/
def matchFree (m : Matcher) (l : List Char) : Prop := ∀ j, m (l.drop j) = false

/-- Helper: `findM` returns the leftmost matching position. -/
theorem findMSomeChar (m : Matcher) :
    ∀ (l : List Char) (i : Nat), findM m l = some i →
      m (l.drop i) = true ∧ ∀ j < i, m (l.drop j) = false := by
  intro l
  induction l with
  | nil =>
    intro i h
    simp only [findM] at h
    split at h
    · rename_i hm
      cases h
      exact ⟨hm, by omega⟩
    · exact absurd h (by simp)
  | cons c t ih =>
    intro i h
    simp only [findM] at h
    split at h
    · rename_i hm
      cases h
      exact ⟨hm, by omega⟩
    · rename_i hm
      cases hq : findM m t with
      | none => rw [hq] at h; exact absurd h (by simp)
      | some i0 =>
        rw [hq] at h
        simp only [Option.map_some', Option.some.injEq] at h
        subst h
        have := ih i0 hq
        refine ⟨this.1, ?_⟩
        intro j hj
        cases j with
        | zero => simpa using hm
        | succ j0 =>
          simp only [List.drop_succ_cons]
          exact this.2 j0 (by omega)

/-- Helper: a failed search means no position matches. -/
theorem findMNoneChar (m : Matcher) :
    ∀ l : List Char, findM m l = none → matchFree m l := by
  intro l
  induction l with
  | nil =>
    intro h j
    simp only [findM] at h
    split at h
    · exact absurd h (by simp)
    · rename_i hm
      have hmf : m [] = false := by simpa using hm
      simpa [List.drop_nil] using hmf
  | cons c t ih =>
    intro h j
    simp only [findM] at h
    split at h
    · exact absurd h (by simp)
    · rename_i hm
      cases hq : findM m t with
      | some i0 => rw [hq] at h; exact absurd h (by simp)
      | none =>
        cases j with
        | zero => simpa using hm
        | succ j0 =>
          simp only [List.drop_succ_cons]
          exact ih hq j0

/-- Helper: after one substitution the pattern no longer matches anywhere
(the result is a prefix cut before the leftmost match, and a match inside
a prefix would extend to a match in the original). -/
theorem subMFree (m : Matcher) (hm : monoM m) (hn : nilF m) (l : List Char) :
    matchFree m (subM m l) := by
  unfold subM
  cases hf : findM m l with
  | none => exact findMNoneChar m l hf
  | some i =>
    intro j
    have hchar := findMSomeChar m l i hf
    by_cases hji : j < i
    · rw [List.drop_take]
      cases hq : m ((l.drop j).take (i - j)) with
      | false => rfl
      | true =>
        have := hm _ ((l.drop j).drop (i - j)) hq
        rw [List.take_append_drop] at this
        exact absurd this (by simp [hchar.2 j hji])
    · have : (l.take i).drop j = [] := by
        apply List.drop_eq_nil_of_le
        simp only [List.length_take]
        omega
      rw [this]
      exact hn

/-- Helper: pattern-freeness survives taking a prefix. -/
theorem freeTake (m : Matcher) (hm : monoM m) (hn : nilF m) (l : List Char) (n : Nat)
    (h : matchFree m l) : matchFree m (l.take n) := by
  intro j
  by_cases hj : j < n
  · rw [List.drop_take]
    cases hq : m ((l.drop j).take (n - j)) with
    | false => rfl
    | true =>
      have := hm _ ((l.drop j).drop (n - j)) hq
      rw [List.take_append_drop] at this
      exact absurd this (by simp [h j])
  · have : (l.take n).drop j = [] := by
      apply List.drop_eq_nil_of_le
      simp only [List.length_take]
      omega
    rw [this]
    exact hn

/-- Helper: pattern-freeness survives dropping a prefix. -/
theorem freeDrop (m : Matcher) (l : List Char) (n : Nat)
    (h : matchFree m l) : matchFree m (l.drop n) := by
  intro j
  rw [List.drop_drop]
  exact Nat.add_comm n j ▸ h (j + n)

/-- Helper: `dropWhile` is a `drop`. -/
theorem dropWhileEqDrop (p : Char → Bool) (l : List Char) :
    ∃ k, l.dropWhile p = l.drop k := by
  induction l with
  | nil => exact ⟨0, rfl⟩
  | cons c t ih =>
    by_cases hc : p c
    · rcases ih with ⟨k, hk⟩
      exact ⟨k + 1, by simp [List.dropWhile_cons, hc, hk]⟩
    · exact ⟨0, by simp [List.dropWhile_cons, hc]⟩

/-- Helper: right-stripping is a `take`. -/
theorem rdropSpEqTake (l : List Char) : ∃ k, rdropSp l = l.take k := by
  rcases dropWhileEqDrop isSp l.reverse with ⟨k, hk⟩
  refine ⟨l.length - k, ?_⟩
  rw [rdropSp, hk, List.reverse_drop]
  simp

/-- Helper: pattern-freeness survives stripping. -/
theorem freePyStrip (m : Matcher) (hm : monoM m) (hn : nilF m) (l : List Char)
    (h : matchFree m l) : matchFree m (pyStrip l) := by
  rw [pyStrip]
  rcases dropWhileEqDrop isSp l with ⟨k1, hk1⟩
  rcases rdropSpEqTake (l.dropWhile isSp) with ⟨k2, hk2⟩
  rw [hk2, hk1]
  exact freeTake m hm hn _ k2 (freeDrop m l k1 h)

/-- Helper: substitution is the identity on a pattern-free string. -/
theorem subMId (m : Matcher) (l : List Char) (h : matchFree m l) : subM m l = l := by
  unfold subM
  cases hf : findM m l with
  | none => rfl
  | some i => exact absurd (findMSomeChar m l i hf).1 (by simp [h i])

/-- Helper: a substitution step is a prefix cut or the identity. -/
theorem subMTakeOrId (m : Matcher) (l : List Char) :
    (∃ i, subM m l = l.take i) ∨ subM m l = l := by
  unfold subM
  cases hf : findM m l with
  | none => exact Or.inr rfl
  | some i => exact Or.inl ⟨i, rfl⟩

/-- Helper: pattern-freeness survives the remaining substitutions. -/
theorem freeFold (m : Matcher) (hm : monoM m) (hn : nilF m) :
    ∀ (ms : List Matcher) (l : List Char), matchFree m l →
      matchFree m (ms.foldl (fun acc m2 => subM m2 acc) l) := by
  intro ms
  induction ms with
  | nil => intro l h; exact h
  | cons m0 rest ih =>
    intro l h
    simp only [List.foldl_cons]
    apply ih
    rcases subMTakeOrId m0 l with ⟨i, hi⟩ | hi
    · rw [hi]; exact freeTake m hm hn l i h
    · rw [hi]; exact h

/-- Helper: after the full pass every pattern is match-free. -/
theorem foldAllFree :
    ∀ (ms : List Matcher), (∀ m ∈ ms, monoM m ∧ nilF m) → ∀ l : List Char,
      ∀ m ∈ ms, matchFree m (ms.foldl (fun acc m2 => subM m2 acc) l) := by
  intro ms
  induction ms with
  | nil => intro _ l m hm; exact absurd hm (by simp)
  | cons m0 rest ih =>
    intro hgood l m hm
    simp only [List.foldl_cons]
    rcases List.mem_cons.mp hm with h | h
    · subst h
      have hg := hgood m (by simp)
      exact freeFold m hg.1 hg.2 rest (subM m l) (subMFree m hg.1 hg.2 l)
    · exact ih (fun m2 hm2 => hgood m2 (List.mem_cons_of_mem _ hm2)) (subM m0 l) m h

/-- Helper: the full pass is the identity on an all-pattern-free string. -/
theorem foldAllId :
    ∀ (ms : List Matcher) (l : List Char), (∀ m ∈ ms, matchFree m l) →
      ms.foldl (fun acc m2 => subM m2 acc) l = l := by
  intro ms
  induction ms with
  | nil => intro l _; rfl
  | cons m0 rest ih =>
    intro l h
    simp only [List.foldl_cons]
    rw [subMId m0 l (h m0 (by simp))]
    exact ih l (fun m hm => h m (List.mem_cons_of_mem _ hm))

/-- Helper: `dropWhile` is idempotent. -/
theorem dropWhileIdem (p : Char → Bool) (l : List Char) :
    (l.dropWhile p).dropWhile p = l.dropWhile p := by
  induction l with
  | nil => rfl
  | cons c t ih =>
    by_cases hc : p c
    · simp [List.dropWhile_cons, hc, ih]
    · simp [List.dropWhile_cons, hc]

/-- Helper: `str.strip` is idempotent. -/
theorem pyStripIdem (l : List Char) : pyStrip (pyStrip l) = pyStrip l := by
  have hdw : ∀ x : List Char, (x.dropWhile isSp).dropWhile isSp = x.dropWhile isSp :=
    dropWhileIdem isSp
  have hrr : ∀ x : List Char, rdropSp (rdropSp x) = rdropSp x := by
    intro x
    simp only [rdropSp, List.reverse_reverse]
    rw [hdw]
  have hstrip : ∀ x : List Char, (rdropSp (x.dropWhile isSp)).dropWhile isSp
      = rdropSp (x.dropWhile isSp) := by
    intro x
    rcases rdropSpEqTake (x.dropWhile isSp) with ⟨k, hk⟩
    cases hq : rdropSp (x.dropWhile isSp) with
    | nil => rfl
    | cons c t =>
      have hc : ¬ isSp c = true := by
        have hhead : (x.dropWhile isSp).head? = some c ∨ x.dropWhile isSp = [] := by
          rw [hk] at hq
          cases hx : x.dropWhile isSp with
          | nil => exact Or.inr rfl
          | cons c0 t0 =>
            rw [hx] at hq
            cases k with
            | zero => simp at hq
            | succ k0 =>
              simp only [List.take_succ_cons, List.cons.injEq] at hq
              exact Or.inl (by simp [hq.1])
        rcases hhead with hh | hh
        · have := List.head?_dropWhile_not isSp x
          rw [hh] at this
          simpa using this
        · rw [hh] at hq
          exact absurd hq (by simp [rdropSp])
      simp [List.dropWhile_cons, hc]
  rw [pyStrip, pyStrip, hstrip, hrr]

/-- C10: the edition-variant stripper is idempotent — for every string
(hence for every normalized lowercase punctuation-free key)
`_extract_base_title(_extract_base_title(k)) == _extract_base_title(k)`;
and on the spec example it strips
`the stand the complete and uncut edition` to `the stand`. -/
theorem C10_base_idempotent :
    (∀ s : String, extractBaseTitle (extractBaseTitle s) = extractBaseTitle s)
    ∧ extractBaseTitle "the stand the complete and uncut edition" = "the stand" := by
  have hmain : ∀ k : List Char, extractBaseTitleL (extractBaseTitleL k) = extractBaseTitleL k := by
    intro k
    have hfree : ∀ m ∈ basePatterns,
        matchFree m (pyStrip (basePatterns.foldl (fun acc m2 => subM m2 acc) k)) := by
      intro m hm
      have hg := goodPatterns m hm
      exact freePyStrip m hg.1 hg.2 _ (foldAllFree basePatterns goodPatterns k m hm)
    unfold extractBaseTitleL
    rw [foldAllId basePatterns _ hfree]
    exact pyStripIdem _
  refine ⟨?_, by decide⟩
  intro s
  show String.mk (extractBaseTitleL (String.mk (extractBaseTitleL s.data)).data)
      = String.mk (extractBaseTitleL s.data)
  rw [show (String.mk (extractBaseTitleL s.data)).data = extractBaseTitleL s.data from rfl]
  rw [hmain]

/-- Helper: `Char.ofNat` round-trips on valid codepoints. -/
theorem charOfNatToNat (n : Nat) (h : n < 55296) : (Char.ofNat n).toNat = n := by
  unfold Char.ofNat
  split
  · rfl
  · rename_i hv
    exact absurd (Or.inl (by omega)) hv

/-- Helper: ASCII lowercasing is idempotent. -/
theorem toLowerIdem (c : Char) : c.toLower.toLower = c.toLower := by
  unfold Char.toLower
  simp only []
  by_cases h1 : c.toNat ≥ 65 ∧ c.toNat ≤ 90
  · rw [if_pos h1]
    rw [if_neg (by rw [charOfNatToNat _ (by omega)]; omega)]
  · rw [if_neg h1, if_neg h1]

/-- Helper: members of a stripped list are members of the list. -/
theorem memPyStrip (l : List Char) (c : Char) (h : c ∈ pyStrip l) : c ∈ l := by
  rcases dropWhileEqDrop isSp l with ⟨k1, hk1⟩
  rcases rdropSpEqTake (l.dropWhile isSp) with ⟨k2, hk2⟩
  rw [pyStrip, hk2, hk1] at h
  exact List.drop_subset k1 l (List.take_subset k2 _ h)

/-- Helper: members of the squeezed list are a space or original members. -/
theorem memSqueeze (l : List Char) (c : Char) (h : c ∈ squeeze l) : c = ' ' ∨ c ∈ l := by
  induction l with
  | nil => simp [squeeze] at h
  | cons a t ih =>
    cases t with
    | nil =>
      simp only [squeeze, List.mem_singleton] at h
      by_cases ha : isSp a = true
      · simp only [ha, if_true] at h
        exact Or.inl h
      · simp only [ha, if_false] at h
        exact Or.inr (by simp [h])
    | cons b t2 =>
      simp only [squeeze] at h
      split at h
      · rcases ih h with h | h
        · exact Or.inl h
        · exact Or.inr (List.mem_cons_of_mem _ h)
      · rcases List.mem_cons.mp h with h | h
        · by_cases ha : isSp a = true
          · simp only [ha, if_true] at h
            exact Or.inl h
          · simp only [ha, if_false] at h
            exact Or.inr (by simp [h])
        · rcases ih h with h | h
          · exact Or.inl h
          · exact Or.inr (List.mem_cons_of_mem _ h)

/-- Helper: members after `dropWhile` are members. -/
theorem memDropWhile (p : Char → Bool) (l : List Char) (c : Char)
    (h : c ∈ l.dropWhile p) : c ∈ l := by
  rcases dropWhileEqDrop p l with ⟨k, hk⟩
  rw [hk] at h
  exact List.drop_subset k l h

/-- Helper: `dropWhile` yields a suffix. -/
theorem dropWhileSuffix (p : Char → Bool) (l : List Char) : l.dropWhile p <:+ l := by
  rcases dropWhileEqDrop p l with ⟨k, hk⟩
  rw [hk]
  exact List.drop_suffix k l

/-- Helper: a literal match returns a suffix. -/
theorem litPSuffix (w l r : List Char) (h : litP w l = some r) : r <:+ l := by
  simp only [litP] at h
  split at h
  · cases h
    exact List.drop_suffix _ l
  · exact absurd h (by simp)

/-- Helper: `\s+` returns a suffix. -/
theorem ws1PSuffix (l r : List Char) (h : ws1P l = some r) : r <:+ l := by
  cases l with
  | nil => exact absurd h (by simp [ws1P])
  | cons c t =>
    simp only [ws1P] at h
    split at h
    · simp only [Option.some.injEq] at h
      subst h
      exact (dropWhileSuffix isSp t).trans (List.suffix_cons c t)
    · exact absurd h (by simp)

/-- Helper: `\s*` returns a suffix. -/
theorem ws0PSuffix (l r : List Char) (h : ws0P l = some r) : r <:+ l := by
  simp only [ws0P, Option.some.injEq] at h
  exact h ▸ dropWhileSuffix isSp l

/-- Helper: a single-character match returns a suffix. -/
theorem chPSuffix (c : Char) (l r : List Char) (h : chP c l = some r) : r <:+ l := by
  cases l with
  | nil => exact absurd h (by simp [chP])
  | cons c0 t =>
    simp only [chP] at h
    split at h
    · simp only [Option.some.injEq] at h
      subst h
      exact List.suffix_cons c0 t
    · exact absurd h (by simp)

/-- Helper: the numeral-colon tail returns a suffix. -/
theorem numeralColonPSuffix (l r : List Char) (h : numeralColonP l = some r) : r <:+ l := by
  simp only [numeralColonP, Option.bind_eq_bind] at h
  rcases Option.bind_eq_some.mp h with ⟨l1, h1, hx1⟩
  rcases Option.bind_eq_some.mp hx1 with ⟨l2, h2, hx2⟩
  rcases Option.bind_eq_some.mp hx2 with ⟨l4, hx3, h5⟩
  rcases Option.bind_eq_some.mp hx3 with ⟨l3, h3, h4⟩
  have s1 := ws0PSuffix l l1 h1
  have s2 : l2 <:+ l1 := by
    simp only [Option.some.injEq] at h2
    exact h2 ▸ dropWhileSuffix isRomanDigit l1
  have s3 := ws0PSuffix l2 l3 h3
  have s4 := chPSuffix ':' l3 l4 h4
  have s5 := ws0PSuffix l4 r h5
  exact s5.trans (s4.trans (s3.trans (s2.trans s1)))

/-- Helper: the numeral-colon tail only matches when a colon is present. -/
theorem numeralColonPColon (l r : List Char) (h : numeralColonP l = some r) : ':' ∈ l := by
  simp only [numeralColonP, Option.bind_eq_bind] at h
  rcases Option.bind_eq_some.mp h with ⟨l1, h1, hx1⟩
  rcases Option.bind_eq_some.mp hx1 with ⟨l2, h2, hx2⟩
  rcases Option.bind_eq_some.mp hx2 with ⟨l4, hx3, _⟩
  rcases Option.bind_eq_some.mp hx3 with ⟨l3, h3, h4⟩
  have hcol : ':' ∈ l3 := by
    cases l3 with
    | nil => exact absurd h4 (by simp [chP])
    | cons c0 t =>
      simp only [chP] at h4
      split at h4
      · rename_i hc
        simp only [beq_iff_eq] at hc
        simp [hc]
      · exact absurd h4 (by simp)
  have s1 := ws0PSuffix l l1 h1
  have s2 : l2 <:+ l1 := by
    simp only [Option.some.injEq] at h2
    exact h2 ▸ dropWhileSuffix isRomanDigit l1
  have s3 := ws0PSuffix l2 l3 h3
  exact s1.subset (s2.subset (s3.subset hcol))

/-- Helper: the `dark tower` core only matches when a colon is present. -/
theorem darkTowerCorePColon (l r : List Char) (h : darkTowerCoreP l = some r) : ':' ∈ l := by
  simp only [darkTowerCoreP, Option.bind_eq_bind] at h
  rcases Option.bind_eq_some.mp h with ⟨l3, hc3, h4⟩
  rcases Option.bind_eq_some.mp hc3 with ⟨l2, hc2, h3⟩
  rcases Option.bind_eq_some.mp hc2 with ⟨l1, h1, h2⟩
  exact (litPSuffix _ l l1 h1).subset ((ws1PSuffix l1 l2 h2).subset
    ((litPSuffix _ l2 l3 h3).subset (numeralColonPColon l3 r h4)))

/-- Helper: on a colon-free string the `Dark Tower` stripper is the
identity (its regex requires a colon). -/
theorem stripDarkTowerNoColon (l : List Char) (h : ':' ∉ l) : stripDarkTower l = l := by
  simp only [stripDarkTower, Option.bind_eq_bind]
  cases hw : ((litP ['t','h','e'] l).bind ws1P).bind darkTowerCoreP with
  | some r =>
    exfalso
    rcases Option.bind_eq_some.mp hw with ⟨l1, hc1, h2⟩
    rcases Option.bind_eq_some.mp hc1 with ⟨l0, h0, h0b⟩
    exact h ((litPSuffix _ l l0 h0).subset ((ws1PSuffix l0 l1 h0b).subset
      (darkTowerCorePColon l1 r h2)))
  | none =>
    simp only []
    cases hc : darkTowerCoreP l with
    | some r => exact absurd (darkTowerCorePColon l r hc) h
    | none => rfl

/-- Helper: on a colon-free string the `Tour Sombre` stripper is the
identity. -/
theorem stripTourSombreNoColon (l : List Char) (h : ':' ∉ l) : stripTourSombre l = l := by
  simp only [stripTourSombre, Option.bind_eq_bind]
  cases hw : (((((litP ['l','a'] l).bind ws1P).bind (litP ['t','o','u','r'])).bind
      ws1P).bind (litP ['s','o','m','b','r','e'])).bind numeralColonP with
  | some r =>
    exfalso
    rcases Option.bind_eq_some.mp hw with ⟨l5, hc5, h6⟩
    rcases Option.bind_eq_some.mp hc5 with ⟨l4, hc4, h5b⟩
    rcases Option.bind_eq_some.mp hc4 with ⟨l3, hc3, h4b⟩
    rcases Option.bind_eq_some.mp hc3 with ⟨l2, hc2, h3b⟩
    rcases Option.bind_eq_some.mp hc2 with ⟨l1, h1, h2b⟩
    exact h ((litPSuffix _ l l1 h1).subset ((ws1PSuffix l1 l2 h2b).subset
      ((litPSuffix _ l2 l3 h3b).subset ((ws1PSuffix l3 l4 h4b).subset
        ((litPSuffix _ l4 l5 h5b).subset (numeralColonPColon l5 r h6))))))
  | none => rfl

/-- No two adjacent whitespace characters. -/
def noAdjC (l : List Char) : Prop :=
  l.Chain' (fun a b => ¬(isSp a = true ∧ isSp b = true))

/-- Helper: squeezing preserves the whitespace status of the head. -/
theorem squeezeHeadSp (b : Char) (t : List Char) :
    ∃ c, (squeeze (b :: t)).head? = some c ∧ isSp c = isSp b := by
  induction t generalizing b with
  | nil =>
    refine ⟨if isSp b then ' ' else b, rfl, ?_⟩
    by_cases hb : isSp b = true
    · rw [if_pos hb, hb]
      decide
    · rw [if_neg hb]
  | cons b2 t2 ih =>
    simp only [squeeze]
    split
    · rename_i hss
      rcases ih b2 with ⟨c, hc, hcs⟩
      exact ⟨c, hc, by rw [hcs, hss.1, hss.2]⟩
    · refine ⟨if isSp b then ' ' else b, rfl, ?_⟩
      by_cases hb : isSp b = true
      · rw [if_pos hb, hb]
        decide
      · rw [if_neg hb]

/-- Helper: a squeezed list has no two adjacent whitespace characters. -/
theorem squeezeNoAdj (l : List Char) : noAdjC (squeeze l) := by
  induction l with
  | nil => simp [squeeze, noAdjC]
  | cons a t ih =>
    cases t with
    | nil => simp [squeeze, noAdjC]
    | cons b t2 =>
      simp only [squeeze, noAdjC]
      split
      · exact ih
      · rename_i hnss
        rw [List.chain'_cons']
        refine ⟨?_, ih⟩
        intro y hy
        rcases squeezeHeadSp b t2 with ⟨c, hc, hcs⟩
        rw [hc] at hy
        cases hy
        intro hcontra
        apply hnss
        constructor
        · by_cases ha : isSp a = true
          · exact ha
          · exfalso
            rw [if_neg ha] at hcontra
            exact absurd hcontra.1 (by simp [ha])
        · rw [← hcs]
          exact hcontra.2

/-- Helper: every whitespace character of a squeezed list is a space. -/
theorem squeezeAllSp (l : List Char) :
    ∀ c ∈ squeeze l, isSp c = true → c = ' ' := by
  induction l with
  | nil => simp [squeeze]
  | cons a t ih =>
    cases t with
    | nil =>
      intro c hc hsp
      simp only [squeeze, List.mem_singleton] at hc
      subst hc
      by_cases ha : isSp a = true
      · rw [if_pos ha]
      · rw [if_neg ha] at hsp ⊢
        exact absurd hsp ha
    | cons b t2 =>
      intro c hc hsp
      simp only [squeeze] at hc
      split at hc
      · exact ih c hc hsp
      · rcases List.mem_cons.mp hc with hc | hc
        · subst hc
          by_cases ha : isSp a = true
          · rw [if_pos ha]
          · rw [if_neg ha] at hsp ⊢
            exact absurd hsp ha
        · exact ih c hc hsp

/-- Helper: squeezing fixes a list with no adjacent whitespace whose
whitespace is all spaces. -/
theorem squeezeFix (l : List Char) (hch : noAdjC l)
    (hsp : ∀ c ∈ l, isSp c = true → c = ' ') : squeeze l = l := by
  induction l with
  | nil => rfl
  | cons a t ih =>
    cases t with
    | nil =>
      simp only [squeeze]
      by_cases ha : isSp a = true
      · rw [if_pos ha, hsp a (by simp) ha]
      · rw [if_neg ha]
    | cons b t2 =>
      simp only [squeeze]
      have hpair : ¬(isSp a = true ∧ isSp b = true) :=
        (List.chain'_cons.mp hch).1
      rw [if_neg hpair]
      have hrest : squeeze (b :: t2) = b :: t2 :=
        ih (List.chain'_cons.mp hch).2
          (fun c hc h => hsp c (List.mem_cons_of_mem _ hc) h)
      rw [hrest]
      by_cases ha : isSp a = true
      · rw [if_pos ha, hsp a (by simp) ha]
      · rw [if_neg ha]

/-- Helper: `dropWhile` fixes a list whose head does not satisfy the
predicate. -/
theorem dropWhileFixOfHead (p : Char → Bool) (l : List Char)
    (h : ∀ c, l.head? = some c → p c = false) : l.dropWhile p = l := by
  cases l with
  | nil => rfl
  | cons c t =>
    rw [List.dropWhile_cons_of_neg]
    simp [h c rfl]

/-- Helper: right-stripping fixes a list whose last character is not
whitespace. -/
theorem rdropSpFix (l : List Char)
    (h : ∀ c, l.reverse.head? = some c → isSp c = false) : rdropSp l = l := by
  rw [rdropSp, dropWhileFixOfHead isSp l.reverse h, List.reverse_reverse]

/-- Helper: after right-stripping, the last character is not whitespace. -/
theorem rdropSpRevHead (z : List Char) :
    ∀ c, (rdropSp z).reverse.head? = some c → isSp c = false := by
  intro c hc
  rw [rdropSp, List.reverse_reverse] at hc
  have := List.head?_dropWhile_not isSp z.reverse
  rw [hc] at this
  simpa using this

/-- Helper: a non-trivial `take` preserves the head. -/
theorem headTakeNe (l : List Char) (k : Nat) (hk : k ≠ 0) :
    (l.take k).head? = l.head? := by
  cases l with
  | nil => simp
  | cons c t =>
    cases k with
    | zero => exact absurd rfl hk
    | succ k0 => simp

/-- Helper: a stripped list is fixed by a leading `dropWhile`. -/
theorem pyStripHeadFix (z : List Char) :
    (pyStrip z).dropWhile isSp = pyStrip z := by
  apply dropWhileFixOfHead
  intro c hc
  rcases rdropSpEqTake (z.dropWhile isSp) with ⟨k, hk⟩
  rw [pyStrip, hk] at hc
  by_cases hk0 : k = 0
  · rw [hk0] at hc
    simp at hc
  · rw [headTakeNe _ k hk0] at hc
    have := List.head?_dropWhile_not isSp z
    rw [hc] at this
    simpa using this

/-- Helper: a non-empty suffix shares the last character. -/
theorem suffixRevHead (y r : List Char) (j : Nat) (hr : r = y.drop j) (hne : r ≠ []) :
    r.reverse.head? = y.reverse.head? := by
  have hsuf : r <:+ y := hr ▸ List.drop_suffix j y
  rcases hsuf with ⟨u, hu⟩
  rw [← hu, List.reverse_append]
  cases hrev : r.reverse with
  | nil => exact absurd (by simpa using hrev) hne
  | cons c t => simp

/-- The shape of an intermediate result in the second normalization pass:
a suffix of `y` already fixed by a leading `dropWhile`. -/
def sufOk (y r : List Char) : Prop :=
  (∃ j, r = y.drop j) ∧ r.dropWhile isSp = r

/-- Helper: article stripping preserves the suffix shape. -/
theorem sufOkStripArt (arts : List (List Char)) (y r : List Char) (h : sufOk y r) :
    sufOk y (stripLeadArticle arts r) := by
  rcases h with ⟨⟨j, hj⟩, hfix⟩
  unfold stripLeadArticle
  cases hf : arts.find? (fun a =>
      leadsWith a r && (match (r.drop a.length).head? with
        | some c => isSp c
        | none => false)) with
  | none => exact ⟨⟨j, hj⟩, hfix⟩
  | some a =>
    rcases dropWhileEqDrop isSp (r.drop a.length) with ⟨k, hk⟩
    have hred : (match some a with
        | some a => ((r.drop (a : List Char).length).dropWhile isSp)
        | none => r) = (r.drop a.length).dropWhile isSp := rfl
    rw [hred]
    refine ⟨⟨a.length + k + j, ?_⟩, dropWhileIdem isSp _⟩
    rw [hk, hj, List.drop_drop, List.drop_drop]
    congr 1
    omega

/-- Helper: the possessive-marker stripper preserves the suffix shape. -/
theorem sufOkStripGwendy (y r : List Char) (h : sufOk y r) :
    sufOk y (stripGwendy r) := by
  rcases h with ⟨⟨j, hj⟩, hfix⟩
  unfold stripGwendy
  cases hf : litP ['g','w','e','n','d','y'] r with
  | none => exact ⟨⟨j, hj⟩, hfix⟩
  | some r0 =>
    have hr0 : r0 = r.drop 6 := by
      simp only [litP] at hf
      split at hf
      · simpa using hf.symm
      · exact absurd hf (by simp)
    rcases dropWhileEqDrop (fun c => c == apoC || c == 's') r0 with ⟨k1, hk1⟩
    have hred : (match some r0 with
        | some r2 => ((r2.dropWhile (fun c => c == apoC || c == 's')).dropWhile isSp)
        | none => r) = (r0.dropWhile (fun c => c == apoC || c == 's')).dropWhile isSp := rfl
    rw [hred]
    rcases dropWhileEqDrop isSp (r0.dropWhile (fun c => c == apoC || c == 's')) with ⟨k2, hk2⟩
    refine ⟨⟨k2 + k1 + 6 + j, ?_⟩, dropWhileIdem isSp _⟩
    rw [hk2, hk1, hr0, hj]
    rw [List.drop_drop, List.drop_drop, List.drop_drop]
    congr 1
    omega

/-- Helper: lowercasing fixes an already-lowercase list. -/
theorem lowerFix (l : List Char) (h : ∀ c ∈ l, c.toLower = c) : lowerL l = l := by
  rw [lowerL, List.map_congr_left h]
  exact List.map_id' l

/-- Helper: article stripping removes characters only. -/
theorem stripArtSubset (arts : List (List Char)) (x : List Char) :
    ∀ c ∈ stripLeadArticle arts x, c ∈ x := by
  intro c hc
  unfold stripLeadArticle at hc
  split at hc
  · exact List.drop_subset _ x (memDropWhile isSp _ c hc)
  · exact hc

/-- Helper: the `Dark Tower` stripper returns a suffix. -/
theorem stripDarkTowerSuffix (x : List Char) : stripDarkTower x <:+ x := by
  unfold stripDarkTower
  simp only [Option.bind_eq_bind]
  cases hw : ((litP ['t','h','e'] x).bind ws1P).bind darkTowerCoreP with
  | some r =>
    rcases Option.bind_eq_some.mp hw with ⟨l1, hc1, h2⟩
    rcases Option.bind_eq_some.mp hc1 with ⟨l0, h0, h0b⟩
    rcases Option.bind_eq_some.mp (by
      simpa [darkTowerCoreP, Option.bind_eq_bind] using h2) with ⟨l3, hc3, h4⟩
    rcases Option.bind_eq_some.mp hc3 with ⟨l2, hc2, h3⟩
    rcases Option.bind_eq_some.mp hc2 with ⟨la, h1a, h2a⟩
    exact ((numeralColonPSuffix l3 r h4).trans ((litPSuffix _ l2 l3 h3).trans
      ((ws1PSuffix la l2 h2a).trans ((litPSuffix _ l1 la h1a).trans
        ((ws1PSuffix l0 l1 h0b).trans (litPSuffix _ x l0 h0)))))) 
  | none =>
    simp only []
    cases hc : darkTowerCoreP x with
    | some r =>
      rcases Option.bind_eq_some.mp (by
        simpa [darkTowerCoreP, Option.bind_eq_bind] using hc) with ⟨l3, hc3, h4⟩
      rcases Option.bind_eq_some.mp hc3 with ⟨l2, hc2, h3⟩
      rcases Option.bind_eq_some.mp hc2 with ⟨l1, h1, h2⟩
      exact ((numeralColonPSuffix l3 r h4).trans ((litPSuffix _ l2 l3 h3).trans
        ((ws1PSuffix l1 l2 h2).trans (litPSuffix _ x l1 h1))))
    | none => exact List.suffix_refl x

/-- Helper: the `Tour Sombre` stripper returns a suffix. -/
theorem stripTourSombreSuffix (x : List Char) : stripTourSombre x <:+ x := by
  unfold stripTourSombre
  simp only [Option.bind_eq_bind]
  cases hw : (((((litP ['l','a'] x).bind ws1P).bind (litP ['t','o','u','r'])).bind
      ws1P).bind (litP ['s','o','m','b','r','e'])).bind numeralColonP with
  | some r =>
    rcases Option.bind_eq_some.mp hw with ⟨l5, hc5, h6⟩
    rcases Option.bind_eq_some.mp hc5 with ⟨l4, hc4, h5b⟩
    rcases Option.bind_eq_some.mp hc4 with ⟨l3, hc3, h4b⟩
    rcases Option.bind_eq_some.mp hc3 with ⟨l2, hc2, h3b⟩
    rcases Option.bind_eq_some.mp hc2 with ⟨l1, h1, h2b⟩
    exact ((numeralColonPSuffix l5 r h6).trans ((litPSuffix _ l4 l5 h5b).trans
      ((ws1PSuffix l3 l4 h4b).trans ((litPSuffix _ l2 l3 h3b).trans
        ((ws1PSuffix l1 l2 h2b).trans (litPSuffix _ x l1 h1))))))
  | none => exact List.suffix_refl x

/-- Helper: the possessive-marker stripper removes characters only. -/
theorem stripGwendySubset (x : List Char) : ∀ c ∈ stripGwendy x, c ∈ x := by
  intro c hc
  unfold stripGwendy at hc
  split at hc
  · rename_i r0 hf
    have hr0 : r0 = x.drop 6 := by
      simp only [litP] at hf
      split at hf
      · simpa using hf.symm
      · exact absurd hf (by simp)
    have := memDropWhile isSp _ c hc
    have := memDropWhile (fun c => c == apoC || c == 's') _ c this
    rw [hr0] at this
    exact List.drop_subset 6 x this
  · exact hc

/-- Helper: structural facts about a normalizer output (all characters
kept by the punctuation filter, no adjacent whitespace, whitespace is
spaces, no leading or trailing whitespace). -/
theorem normOutFacts (w : List Char) :
    (∀ c ∈ pyStrip (squeeze (List.filter keepCh w)), keepCh c = true)
    ∧ noAdjC (pyStrip (squeeze (List.filter keepCh w)))
    ∧ (∀ c ∈ pyStrip (squeeze (List.filter keepCh w)), isSp c = true → c = ' ')
    ∧ (pyStrip (squeeze (List.filter keepCh w))).dropWhile isSp
        = pyStrip (squeeze (List.filter keepCh w))
    ∧ (∀ c, (pyStrip (squeeze (List.filter keepCh w))).reverse.head? = some c →
        isSp c = false)
    ∧ pyStrip (pyStrip (squeeze (List.filter keepCh w)))
        = pyStrip (squeeze (List.filter keepCh w)) := by
  refine ⟨?_, ?_, ?_, pyStripHeadFix _, ?_, pyStripIdem _⟩
  · intro c hc
    rcases memSqueeze _ c (memPyStrip _ c hc) with h | h
    · subst h
      decide
    · exact (List.mem_filter.mp h).2
  · rcases dropWhileEqDrop isSp (squeeze (List.filter keepCh w)) with ⟨k1, hk1⟩
    rcases rdropSpEqTake ((squeeze (List.filter keepCh w)).dropWhile isSp) with ⟨k2, hk2⟩
    rw [noAdjC, pyStrip, hk2, hk1]
    exact ((squeezeNoAdj _).drop k1).take k2
  · intro c hc
    exact squeezeAllSp _ c (memPyStrip _ c hc)
  · exact rdropSpRevHead _

/-- Helper: the punctuation filter, whitespace collapse and strip fix any
suffix-shaped remainder of a normalizer output. -/
theorem passFix (y r : List Char)
    (hkeep : ∀ c ∈ y, keepCh c = true)
    (hch : noAdjC y)
    (hsp : ∀ c ∈ y, isSp c = true → c = ' ')
    (hlast : ∀ c, y.reverse.head? = some c → isSp c = false)
    (hs : sufOk y r) :
    pyStrip (squeeze (List.filter keepCh r)) = r := by
  rcases hs with ⟨⟨j, hj⟩, hfix⟩
  have hsub : ∀ c ∈ r, c ∈ y := by
    intro c hc
    rw [hj] at hc
    exact List.drop_subset j y hc
  have hfil : List.filter keepCh r = r :=
    List.filter_eq_self.mpr (fun c hc => hkeep c (hsub c hc))
  rw [hfil]
  have hsq : squeeze r = r := by
    apply squeezeFix
    · rw [hj, noAdjC]
      exact hch.drop j
    · exact fun c hc h => hsp c (hsub c hc) h
  rw [hsq, pyStrip, hfix]
  apply rdropSpFix
  intro c hc
  by_cases hr : r = []
  · rw [hr] at hc
    simp at hc
  · rw [suffixRevHead y r j hj hr] at hc
    exact hlast c hc

/-- Helper: the merger normalizer output is lowercase. -/
theorem mergerNormLowered (l : List Char) :
    ∀ c ∈ mergerNormalizeL l, c.toLower = c := by
  intro c hc
  rcases memSqueeze _ c (memPyStrip _ c hc) with h | h
  · subst h
    rfl
  · have := stripArtSubset mergerArticles _ c (List.mem_filter.mp h).1
    have := memPyStrip _ c this
    rcases List.mem_map.mp this with ⟨d, _, hd⟩
    rw [← hd]
    exact toLowerIdem d

/-- Helper: the workflow normalizer output is lowercase. -/
theorem normalizeTitleLowered (l : List Char) :
    ∀ c ∈ normalizeTitleL l, c.toLower = c := by
  intro c hc
  rcases memSqueeze _ c (memPyStrip _ c hc) with h | h
  · subst h
    rfl
  · have h1 := stripArtSubset mainArticles _ c (List.mem_filter.mp h).1
    have h2 := stripGwendySubset _ c h1
    have h3 := (stripTourSombreSuffix _).subset h2
    have h4 := (stripDarkTowerSuffix _).subset h3
    have h5 := memPyStrip _ c h4
    rcases List.mem_map.mp h5 with ⟨d, _, hd⟩
    rw [← hd]
    exact toLowerIdem d

/-- Helper: a second application of the merger normalizer only strips one
more leading English article. -/
theorem mergerNormalizeSecond (l : List Char) :
    mergerNormalizeL (mergerNormalizeL l)
      = stripLeadArticle mergerArticles (mergerNormalizeL l) := by
  obtain ⟨hkeep, hch, hsp, hhead, hlast, hstrip⟩ :=
    normOutFacts (stripLeadArticle mergerArticles (pyStrip (lowerL l)))
  show pyStrip (squeeze (List.filter keepCh (stripLeadArticle mergerArticles
      (pyStrip (lowerL (mergerNormalizeL l)))))) = _
  rw [lowerFix _ (mergerNormLowered l)]
  have hstrip2 : pyStrip (mergerNormalizeL l) = mergerNormalizeL l := hstrip
  rw [hstrip2]
  exact passFix (mergerNormalizeL l) _ hkeep hch hsp hlast
    (sufOkStripArt mergerArticles _ _ ⟨⟨0, rfl⟩, hhead⟩)

/-- Helper: normalized titles contain no colon, so the series-prefix
regexes cannot fire a second time. -/
theorem normalizeTitleNoColon (l : List Char) : ':' ∉ normalizeTitleL l := by
  intro hc
  obtain ⟨hkeep, _, _, _, _, _⟩ :=
    normOutFacts (stripLeadArticle mainArticles (stripGwendy (stripTourSombre
      (stripDarkTower (pyStrip (lowerL l))))))
  have : keepCh ':' = true := hkeep ':' hc
  exact absurd this (by decide)

/-- Helper: a second application of the workflow normalizer only strips
one more possessive marker and leading article. -/
theorem normalizeTitleSecond (l : List Char) :
    normalizeTitleL (normalizeTitleL l)
      = stripLeadArticle mainArticles (stripGwendy (normalizeTitleL l)) := by
  obtain ⟨hkeep, hch, hsp, hhead, hlast, hstrip⟩ :=
    normOutFacts (stripLeadArticle mainArticles (stripGwendy (stripTourSombre
      (stripDarkTower (pyStrip (lowerL l))))))
  show pyStrip (squeeze (List.filter keepCh (stripLeadArticle mainArticles
      (stripGwendy (stripTourSombre (stripDarkTower
        (pyStrip (lowerL (normalizeTitleL l))))))))) = _
  rw [lowerFix _ (normalizeTitleLowered l)]
  have hstrip2 : pyStrip (normalizeTitleL l) = normalizeTitleL l := hstrip
  rw [hstrip2]
  rw [stripDarkTowerNoColon _ (normalizeTitleNoColon l)]
  rw [stripTourSombreNoColon _ (normalizeTitleNoColon l)]
  exact passFix (normalizeTitleL l) _ hkeep hch hsp hlast
    (sufOkStripArt mainArticles _ _
      (sufOkStripGwendy _ _ ⟨⟨0, rfl⟩, hhead⟩))

/-- C6 amended: neither normalizer is idempotent in general; precisely, a
second application equals one more leading-prefix strip on the normalized
output (one English article for the merger's `_normalize`; one
`gwendy`-possessive marker and one English/French article for
`normalize_title`, whose series-prefix rules cannot re-fire because the
colon is gone).  Idempotence therefore holds exactly when the normalized
output has no such strippable leading prefix. -/
theorem C6_second_strip :
    (∀ s : String, mergerNormalize (mergerNormalize s)
      = String.mk (stripLeadArticle mergerArticles (mergerNormalize s).data))
    ∧ (∀ s : String, normalizeTitle (normalizeTitle s)
      = String.mk (stripLeadArticle mainArticles (stripGwendy (normalizeTitle s).data)))
    ∧ (∀ s : String,
        stripLeadArticle mergerArticles (mergerNormalize s).data = (mergerNormalize s).data →
        mergerNormalize (mergerNormalize s) = mergerNormalize s)
    ∧ (∀ s : String,
        stripLeadArticle mainArticles (stripGwendy (normalizeTitle s).data)
          = (normalizeTitle s).data →
        normalizeTitle (normalizeTitle s) = normalizeTitle s) := by
  have h1 : ∀ s : String, mergerNormalize (mergerNormalize s)
      = String.mk (stripLeadArticle mergerArticles (mergerNormalize s).data) := by
    intro s
    show String.mk (mergerNormalizeL (mergerNormalizeL s.data)) = _
    rw [mergerNormalizeSecond]
    rfl
  have h2 : ∀ s : String, normalizeTitle (normalizeTitle s)
      = String.mk (stripLeadArticle mainArticles (stripGwendy (normalizeTitle s).data)) := by
    intro s
    show String.mk (normalizeTitleL (normalizeTitleL s.data)) = _
    rw [normalizeTitleSecond]
    rfl
  refine ⟨h1, h2, ?_, ?_⟩
  · intro s hfix
    rw [h1 s, hfix]
  · intro s hfix
    rw [h2 s, hfix]

/-- C6 counterexample: on `The The Shining` a second application strips a
second article, so neither function is idempotent as claimed. -/
theorem C6_counterexample :
    mergerNormalize (mergerNormalize "The The Shining") ≠ mergerNormalize "The The Shining"
    ∧ normalizeTitle (normalizeTitle "The The Shining") ≠ normalizeTitle "The The Shining" :=
  ⟨by decide, by decide⟩

/-- Witness for C6: the prefix-free conditions hold at `Misery`, where
both normalizers are idempotent. -/
theorem C6_witness :
    mergerNormalize (mergerNormalize "Misery") = mergerNormalize "Misery"
    ∧ normalizeTitle (normalizeTitle "Misery") = normalizeTitle "Misery" :=
  ⟨C6_second_strip.2.2.1 "Misery" (by decide),
   C6_second_strip.2.2.2 "Misery" (by decide)⟩
